import Mathlib

/-!
Verification development for `src/kmer_count_pairs.cc` (percyfal/kmer-utils).

The program merges two sorted jellyfish k-mer databases with a min-heap,
builds one count vector per distinct k-mer, accumulates a two-level
coverage histogram `coverage_count[counts[0]][counts[1]]++`, writes the
histogram as a TSV table, and feeds `(key, counts[0])` into an in-memory
mer hash whose final dump to disk is gated by the `-m` flag.

Embedding conventions:
- A k-mer key is an opaque totally ordered value; we use `Nat`.  Counts and
  occurrence tallies are `uint64_t` in the source; realistic values never
  approach `2^64` (spec section 4.3 explicitly waives overflow handling),
  so they are embedded as `Nat`.
- A decoded database (`binary_reader`/`text_reader`) is its sorted
  `(key, count)` enumeration: `List (Nat × Nat)`.
- The jellyfish `mer_heap::heap` over the live stream cursors is
  represented by the list of remaining stream suffixes; its entry set is
  exactly the set of current stream heads, and `heapHead` returns the
  minimum entry (ordered by key, ties broken by stream index, the
  tie-break permitted by spec section 4.1).  `pop` followed by
  `it_->next()/push` is `popAdvance`, which drops the head of the popped
  entry's stream.
- Loops are embedded as fuel-indexed structural recursions; every loop
  iteration consumes at least one stream element, so fuel `totalLen ss`
  (the number of unread pairs) is always sufficient, which the lemmas
  below prove.
- `std::unordered_map` (libstdc++) keeps all elements on one singly
  linked list and links a node whose bucket was empty in at the head of
  that list; for the distinct small-integer keys arising here every fresh
  key gets a fresh bucket, so fresh keys are prepended and existing keys
  are updated in place.  `coverage_incr` models exactly that.  Nothing in
  the container sorts by key.
- `std::ofstream` failure: a failed `open` sets the failbit and all
  subsequent `<<` writes are no-ops; the source never checks the stream
  state, which the `output_counts` model reflects with the `openOk` flag.
-/

namespace KmerCountPairs

/-- A decoded sorted k-mer database: the (key, count) pairs produced by a
jellyfish `binary_reader`/`text_reader` in ascending key order. -/
abbrev CountStream : Type := List (Nat × Nat)

/-- Strictly ascending key order inside one stream (the reader contract:
spec section 3, SortedCountStream). -/
def Asc (s : CountStream) : Prop := List.Pairwise (fun p q : Nat × Nat => p.1 < q.1) s

instance (s : CountStream) : Decidable (Asc s) :=
  inferInstanceAs (Decidable (List.Pairwise (fun p q : Nat × Nat => p.1 < q.1) s))

/-- Every input stream is strictly ascending. -/
def AllAsc (ss : List CountStream) : Prop := ∀ s ∈ ss, Asc s

instance (ss : List CountStream) : Decidable (AllAsc ss) :=
  inferInstanceAs (Decidable (∀ s ∈ ss, Asc s))

/-- Total number of unread (key, count) pairs: the termination measure of
both merge loops. -/
def totalLen (ss : List CountStream) : Nat := (ss.map List.length).sum

/-- The live heap entries `(key, stream index, count)`: one per non-empty
stream, its current head.  Mirrors the contents of the jellyfish heap
after the prime loop (`kmer_count_pairs.cc:107-112`) and after every
pop/next/push round trip. -/
def headsFrom : Nat → List CountStream → List (Nat × Nat × Nat)
  | _, [] => []
  | i, [] :: rest => headsFrom (i + 1) rest
  | i, ((k, v) :: _) :: rest => (k, i, v) :: headsFrom (i + 1) rest

/-- Select the minimum entry by key; on equal keys the earlier entry (the
smaller stream index) is kept. -/
def pickMin : Option (Nat × Nat × Nat) → List (Nat × Nat × Nat) → Option (Nat × Nat × Nat)
  | acc, [] => acc
  | none, e :: es => pickMin (some e) es
  | some a, e :: es => pickMin (some (if e.1 < a.1 then e else a)) es

/-- Model of `heap.head()` dereferenced: the minimum (key, stream index, count)
among the current stream heads, `none` when the heap is empty. -/
def heapHead (ss : List CountStream) : Option (Nat × Nat × Nat) :=
  pickMin none (headsFrom 0 ss)

/-- Model of `heap.pop()` of stream `i`'s entry followed by `head->it_->next()` and,
when the stream still has data, `heap.push(*head->it_)`
(`kmer_count_pairs.cc:129-131`): the stream's head is consumed. -/
def popAdvance (ss : List CountStream) (i : Nat) : List CountStream :=
  ss.set i (ss[i]?.getD []).tail

/-- The group-draining do-while loop (`kmer_count_pairs.cc:127-133`):

    do {
      counts[head->it_ - base] = head->val_;
      heap.pop();
      if(head->it_->next()) heap.push(*head->it_);
      head = heap.head();
    } while(head->key_ == key && heap.is_not_empty());

Returns the remaining streams, the filled `counts` array, and a tally of
loop-condition evaluations that dereferenced `head` while the heap was
empty (the `head->key_` read is sequenced before `heap.is_not_empty()`;
when the heap is empty it reads the stale root slot, whose key is the key
just popped, so the conjunction still evaluates to false and the loop
exits).  Structural in `fuel`; `fuel = totalLen ss` always suffices. -/
def drainLoopF : Nat → Nat → List CountStream → List Nat → Nat →
    List CountStream × List Nat × Nat
  | 0, _, ss, counts, dE => (ss, counts, dE)
  | fuel + 1, key, ss, counts, dE =>
    match heapHead ss with
    | none => (ss, counts, dE)
    | some e =>
      let counts2 := counts.set e.2.1 e.2.2
      let ss2 := popAdvance ss e.2.1
      match heapHead ss2 with
      | none => (ss2, counts2, dE + 1)
      | some e2 =>
        if e2.1 = key then drainLoopF fuel key ss2 counts2 dE
        else (ss2, counts2, dE)

/-- The outer merge loop (`kmer_count_pairs.cc:122-138`): while the heap is
non-empty, read the minimum key, zero the counts array (`memset`, length
`num_files`), drain the group, and emit `(key, counts)`.  Also sums the
empty-heap head dereferences reported by the inner loop.  The histogram
update and the `mer_hash_.add` call that the source performs inside this
loop are applied to the returned group list in the same order by
`output_counts` below. -/
def mergeLoopF : Nat → Nat → List CountStream → List (Nat × List Nat) × Nat
  | 0, _, _ => ([], 0)
  | fuel + 1, n, ss =>
    match heapHead ss with
    | none => ([], 0)
    | some e =>
      let r := drainLoopF (totalLen ss) e.1 ss (List.replicate n 0) 0
      let rest := mergeLoopF fuel n r.1
      ((e.1, r.2.1) :: rest.1, r.2.2 + rest.2)

/-- The whole merge: groups in emission order plus the count of empty-heap
head dereferences. -/
def mergeGroupsAll (ss : List CountStream) : List (Nat × List Nat) × Nat :=
  mergeLoopF (totalLen ss) ss.length ss

/-- The emitted merge groups `(key, counts)`. -/
def mergeGroupsList (ss : List CountStream) : List (Nat × List Nat) :=
  (mergeGroupsAll ss).1

/-- Inner `std::unordered_map<uint64_t, uint64_t>` of `coverage_count`:
association list, fresh keys prepended (libstdc++ head insertion),
existing keys bumped in place. -/
abbrev Inner : Type := List (Nat × Nat)

/-- Outer `coverage_count` map. -/
abbrev Hist : Type := List (Nat × Inner)

/-- Increment the (unique) binding of `c1`, leaving everything else in
place.  Only called when `c1` is present. -/
def bumpInner (c1 : Nat) : Inner → Inner
  | [] => []
  | (b, m) :: rest => if b = c1 then (b, m + 1) :: rest else (b, m) :: bumpInner c1 rest

/-- Model of `inner[c1]++`: `operator[]` default-inserts 0 for an absent key (fresh
node at the list head), then the value is incremented. -/
def innerIncr (c1 : Nat) (l : Inner) : Inner :=
  if l.any fun p => p.1 == c1 then bumpInner c1 l else (c1, 1) :: l

/-- Increment inside the (unique) outer binding of `c0`. -/
def bumpOuter (c0 c1 : Nat) : Hist → Hist
  | [] => []
  | (a, inn) :: rest =>
    if a = c0 then (a, innerIncr c1 inn) :: rest else (a, inn) :: bumpOuter c0 c1 rest

/-- Model of `coverage_count[counts[0]][counts[1]]++` (`kmer_count_pairs.cc:136`). -/
def coverage_incr (h : Hist) (c0 c1 : Nat) : Hist :=
  if h.any fun x => x.1 == c0 then bumpOuter c0 c1 h else (c0, [(c1, 1)]) :: h

/-- The histogram after recording a sequence of (counts[0], counts[1])
pairs, one per merge group, in merge order. -/
def buildHist (l : List (Nat × Nat)) : Hist :=
  l.foldl (fun h p => coverage_incr h p.1 p.2) []

/-- The table-emission loop (`kmer_count_pairs.cc:141-145`): for each outer
entry, for each inner entry, one `(count0, count1, occurrences)` row, in
the maps' iteration order. -/
def emitRows (h : Hist) : List (Nat × Nat × Nat) :=
  h.flatMap fun x => x.2.map fun y => (x.1, y.1, y.2)

/-- The `(counts[0], counts[1])` pair of every merge group, in merge
order. -/
def groupPairs (ss : List CountStream) : List (Nat × Nat) :=
  (mergeGroupsList ss).map fun g => (g.2.getD 0 0, g.2.getD 1 0)

/-- The `mer_hash_.add(key, counts[0])` call trace
(`kmer_count_pairs.cc:137`), in merge order. -/
def addTraceOf (ss : List CountStream) : List (Nat × Nat) :=
  (mergeGroupsList ss).map fun g => (g.1, g.2.getD 0 0)

/-- Model of `output_counts` (`kmer_count_pairs.cc:100-146`): returns the table rows
actually written (none when `outfile_.open` failed, since the source never
checks the stream and `<<` on a failed stream writes nothing), the mer-hash
add trace, and the number of empty-heap head dereferences. -/
def output_counts (ss : List CountStream) (openOk : Bool) :
    List (Nat × Nat × Nat) × List (Nat × Nat) × Nat :=
  ((if openOk then emitRows (buildHist (groupPairs ss)) else []),
   addTraceOf ss, (mergeGroupsAll ss).2)

/-- The jellyfish header fields that `read_headers` inspects.  The hash
matrix is opaque to the program (only compared for equality), so it is
embedded as a `Nat` identifier. -/
structure FileHeader where
  format : String
  key_len : Nat
  max_reprobe_offset : Nat
  size : Nat
  matrix : Nat
  counter_len : Nat
  deriving DecidableEq

/-- One opened input file: the `is.good()` status after construction, its
parsed header, and its decoded stream. -/
structure FileInfo where
  good : Bool
  header : FileHeader
  stream : CountStream
  deriving DecidableEq

/-- Model of `common_info` (`kmer_count_pairs.cc:50-60`). -/
structure CommonInfo where
  key_len : Nat
  max_reprobe_offset : Nat
  size : Nat
  out_counter_len : Nat
  format : String
  matrix : Nat
  deriving DecidableEq

/-- The per-file checks of the `read_headers` loop body
(`kmer_count_pairs.cc:79-94`), in source order: open failure, format,
key length, reprobe strategy, table size, hash matrix. -/
def checkNext (res : CommonInfo) (f : FileInfo) : Except String Unit :=
  if !f.good then .error "Failed to open input file"
  else if res.format ≠ f.header.format then
    .error "cannot compare files with different formats"
  else if res.key_len ≠ f.header.key_len then
    .error "cannot compare hashes of different key lengths"
  else if res.max_reprobe_offset ≠ f.header.max_reprobe_offset then
    .error "cannot compare hashes with different reprobing strategies"
  else if res.size ≠ f.header.size then
    .error "cannot compare hash with different size"
  else if res.matrix ≠ f.header.matrix then
    .error "cannot compare hash with different hash function"
  else .ok ()

/-- The `for(int i = 1; i < argc; i++)` loop of `read_headers`. -/
def read_headers_loop (res : CommonInfo) : List FileInfo → Except String CommonInfo
  | [] => .ok res
  | f :: rest =>
    match checkNext res f with
    | .error e => .error e
    | .ok _ => read_headers_loop res rest

/-- Model of `read_headers` (`kmer_count_pairs.cc:62-97`): build `common_info` from
the first file and require every later file to match it.  `err::die` is
embedded as `Except.error`. -/
def read_headers (files : List FileInfo) : Except String CommonInfo :=
  match files with
  | [] => .error "no input files"
  | f0 :: rest =>
    if !f0.good then .error "Failed to open input file"
    else
      read_headers_loop
        ⟨f0.header.key_len, f0.header.max_reprobe_offset, f0.header.size,
         f0.header.counter_len, f0.header.format, f0.header.matrix⟩ rest

/-- POSIX `getopt_long` classification of one argument for the option
table entry savemers (no_argument, null flag pointer, val 0) with short
option string m
(`kmer_count_pairs.cc:159-163`): `-m` yields the short option code 109,
`--savemers` has a null flag pointer and `val = 0`, so `getopt_long`
returns 0; anything else is a positional argument (GNU permutation moves
it past the options) and produces no option event. -/
def getoptCode (a : String) : Option Nat :=
  if a = "-m" then some 109
  else if a = "--savemers" then some 0
  else none

/-- The option switch (`kmer_count_pairs.cc:167-173`): only `case 109`
(the character code of m) sets `saveMers`; `case 63` (the character code
of the question mark) breaks, and every other code, in particular the 0
returned for `--savemers`, falls out of the switch leaving the state
unchanged. -/
def optionSwitch (saveMers : Bool) (c : Nat) : Bool :=
  if c = 109 then true else saveMers

/-- The whole option loop: fold the switch over the option events of the
argument list, starting from `saveMers = false`. -/
def parseSaveMers (args : List String) : Bool :=
  args.foldl
    (fun s a =>
      match getoptCode a with
      | some c => optionSwitch s c
      | none => s)
    false

/-- What a completed run produced: the table rows written, the mer-hash
add trace, and whether the accumulated mer hash was dumped to the
`_mers.jf` sink (`kmer_count_pairs.cc:211-212`). -/
structure MainResult where
  table : List (Nat × Nat × Nat)
  addTrace : List (Nat × Nat)
  dumped : Bool
  deriving DecidableEq

/-- Value of `binary_dumper::format` in jellyfish. -/
def binary_format : String := "binary/sorted"

/-- Value of `text_dumper::format` in jellyfish. -/
def text_format : String := "text/sorted"

/-- Model of `main` (`kmer_count_pairs.cc:148-214`) after option parsing: check the
positional argument count, read and cross-check the headers, dispatch on
the declared format, run `output_counts`, and dump the mer hash only when
`saveMers` is set.  `err::die` is `Except.error`; note there is no error
path for a failed table open. -/
def mainRun (optionArgs positionals : List String) (files : List FileInfo)
    (tableOpenOk : Bool) : Except String MainResult :=
  let saveMers := parseSaveMers optionArgs
  if positionals.length ≠ 3 then .error "usage"
  else
    match read_headers files with
    | .error e => .error e
    | .ok cinfo =>
      if cinfo.format = binary_format ∨ cinfo.format = text_format then
        let r := output_counts (files.map FileInfo.stream) tableOpenOk
        .ok ⟨r.1, r.2.1, saveMers⟩
      else .error "format not supported"

/-- The vector `argv` as getopt permutes it: program name, then the
option arguments, then the three positionals. -/
def argvAfterGetopt (prog : String) (optionArgs positionals : List String) : List String :=
  prog :: (optionArgs ++ positionals)

/-- The table path (`kmer_count_pairs.cc:202-204`): `argv[3]` plus
`".tsv"`. -/
def table_file (argv : List String) : String := argv.getD 3 "" ++ ".tsv"

/-- The persisted-mers path (`kmer_count_pairs.cc:192-194`):
`argv[argc - 1]` plus `"_mers.jf"`. -/
def mers_file (argv : List String) : String := argv.getLastD "" ++ "_mers.jf"

/-! ### Helper definitions used by the proofs -/

/-- Drop a stream's head exactly when its head key is `k`. -/
def advanceOne (k : Nat) : CountStream → CountStream
  | [] => []
  | (k2, v) :: t => if k2 = k then t else (k2, v) :: t

/-- Advance every stream whose head key is `k`: the net effect of one
group-draining loop on the streams. -/
def advanceAll (k : Nat) (ss : List CountStream) : List CountStream :=
  ss.map (advanceOne k)

/-- The count recorded for one stream during the group for key `k`: the
stream's head count when its head key is `k`, otherwise the previous
array content. -/
def fillOne (k c : Nat) : CountStream → Nat
  | [] => c
  | (k2, v) :: _ => if k2 = k then v else c

/-- The counts array after draining the group for key `k`: the net effect
of one group-draining loop on `counts`. -/
def fillCounts (k : Nat) (counts : List Nat) (ss : List CountStream) : List Nat :=
  List.zipWith (fillOne k) counts ss

/-- Insert a key into a sorted duplicate-free list of keys. -/
def insertKey (k : Nat) : List Nat → List Nat
  | [] => [k]
  | x :: xs => if k < x then k :: x :: xs else if k = x then x :: xs else x :: insertKey k xs

/-- Sorted duplicate-free list of the elements of `l`. -/
def sortDedup (l : List Nat) : List Nat := l.foldr insertKey []

/-- All keys occurring in any stream (with multiplicity). -/
def keysOf (ss : List CountStream) : List Nat :=
  (ss.map fun s => s.map Prod.fst).flatten

/-- The distinct keys of the union of the streams, ascending. -/
def unionKeys (ss : List CountStream) : List Nat := sortDedup (keysOf ss)

/-- The count a stream reports for key `k`: the first matching entry, or 0
when the stream lacks the key. -/
def lookupKey (s : CountStream) (k : Nat) : Nat :=
  ((s.find? fun p => p.1 == k).map Prod.snd).getD 0

/-- The merge output as the spec words describe it (sections 4.2, 8.1,
8.2): one count vector per distinct key of the union, in ascending key
order, slot i holding stream i's count for the key and zero when stream i
lacks it.  This definition follows the spec, not the source; the
refinement theorems below compare `mergeGroupsList` against it. -/
def specGroups (ss : List CountStream) : List (Nat × List Nat) :=
  (unionKeys ss).map fun k => (k, ss.map fun s => lookupKey s k)

/-- Value stored in an inner histogram map under key `c1` (0 if absent). -/
def innerGet (l : Inner) (c1 : Nat) : Nat :=
  ((l.find? fun p => p.1 == c1).map Prod.snd).getD 0

/-- The occurrence tally stored in the histogram cell `(c0, c1)`. -/
def histGet (h : Hist) (c0 c1 : Nat) : Nat :=
  match h.find? fun x => x.1 == c0 with
  | some x => innerGet x.2 c1
  | none => 0

/-- Sum of all occurrence tallies over all histogram cells. -/
def histSum (h : Hist) : Nat := (h.map fun x => (x.2.map Prod.snd).sum).sum

/-- How many recorded pairs equal `(c0, c1)`. -/
def pairCount (l : List (Nat × Nat)) (c0 c1 : Nat) : Nat :=
  l.countP fun p => p.1 == c0 && p.2 == c1

/-- Rows sorted ascending by count0 and, within equal count0, by count1:
the order the spec asserts for the emitted table. -/
def rowsAscending (rows : List (Nat × Nat × Nat)) : Prop :=
  List.Chain' (fun x y : Nat × Nat × Nat => x.1 < y.1 ∨ (x.1 = y.1 ∧ x.2.1 < y.2.1)) rows

instance (rows : List (Nat × Nat × Nat)) : Decidable (rowsAscending rows) :=
  inferInstanceAs (Decidable (List.Chain'
    (fun x y : Nat × Nat × Nat => x.1 < y.1 ∨ (x.1 = y.1 ∧ x.2.1 < y.2.1)) rows))

/-- Histogram well-formedness invariant: outer keys are distinct, and each
inner map has distinct keys and only non-zero tallies. -/
def InnerWf (l : Inner) : Prop := (l.map Prod.fst).Nodup ∧ ∀ p ∈ l, p.2 ≠ 0

/-- Outer histogram well-formedness. -/
def HistWf (h : Hist) : Prop := (h.map Prod.fst).Nodup ∧ ∀ x ∈ h, InnerWf x.2

/-- Stream A of the spec's concrete scenario (section 8.5), keys encoded
AAA = 0, AAG = 2, AAT = 3. -/
def demoA : CountStream := [(0, 3), (2, 5)]

/-- Stream B of the spec's concrete scenario (section 8.5). -/
def demoB : CountStream := [(0, 3), (2, 2), (3, 1)]

/-- A header shared by the demo inputs. -/
def demoHeader : FileHeader := ⟨"binary/sorted", 42, 126, 1024, 7, 4⟩

/-- Two well-formed demo input files holding the scenario streams. -/
def demoFiles : List FileInfo := [⟨true, demoHeader, demoA⟩, ⟨true, demoHeader, demoB⟩]

/-- A header differing from `demoHeader` in key length. -/
def demoBadHeader : FileHeader := ⟨"binary/sorted", 44, 126, 1024, 7, 4⟩

/-- Demo inputs whose second file's header mismatches the first. -/
def demoBadFiles : List FileInfo :=
  [⟨true, demoHeader, demoA⟩, ⟨true, demoBadHeader, demoB⟩]

/-! ### Heap lemmas: the heap entry set is the set of current stream heads -/

theorem headsFrom_eq_nil_iff (j : Nat) (ss : List CountStream) :
    headsFrom j ss = [] ↔ ∀ s ∈ ss, s = [] := by
  induction ss generalizing j with
  | nil => simp [headsFrom]
  | cons s rest ih =>
    cases s with
    | nil => simpa [headsFrom] using ih (j + 1)
    | cons p t =>
      obtain ⟨k, v⟩ := p
      simp [headsFrom]

theorem mem_headsFrom (k i v j : Nat) (ss : List CountStream) :
    (k, i, v) ∈ headsFrom j ss ↔ ∃ d t, i = j + d ∧ ss[d]? = some ((k, v) :: t) := by
  induction ss generalizing j with
  | nil => simp [headsFrom]
  | cons s rest ih =>
    cases s with
    | nil =>
      rw [headsFrom, ih (j + 1)]
      constructor
      · rintro ⟨d, t, rfl, hd⟩
        exact ⟨d + 1, t, by omega, by simpa using hd⟩
      · rintro ⟨d, t, hi, hd⟩
        cases d with
        | zero => simp at hd
        | succ d => exact ⟨d, t, by omega, by simpa using hd⟩
    | cons p t0 =>
      obtain ⟨k0, v0⟩ := p
      rw [headsFrom]
      simp only [List.mem_cons, ih (j + 1)]
      constructor
      · rintro (he | ⟨d, t, rfl, hd⟩)
        · injection he with hk rest
          injection rest with hi hv
          exact ⟨0, t0, by omega, by simp [hk, hv]⟩
        · exact ⟨d + 1, t, by omega, by simpa using hd⟩
      · rintro ⟨d, t, hi, hd⟩
        cases d with
        | zero =>
          simp only [List.getElem?_cons_zero, Option.some.injEq] at hd
          injection hd with h1 h2
          left
          injection h1 with hk hv
          simp [hk, hv, hi]
        | succ d =>
          right
          exact ⟨d, t, by omega, by simpa using hd⟩

theorem pickMin_ne_none (a : Nat × Nat × Nat) (l : List (Nat × Nat × Nat)) :
    pickMin (some a) l ≠ none := by
  induction l generalizing a with
  | nil => simp [pickMin]
  | cons e es ih => simpa [pickMin] using ih _

theorem pickMin_mem (l : List (Nat × Nat × Nat)) :
    ∀ acc e, pickMin acc l = some e → acc = some e ∨ e ∈ l := by
  induction l with
  | nil => intro acc e h; simp [pickMin] at h; exact Or.inl h
  | cons x xs ih =>
    intro acc e h
    cases acc with
    | none =>
      rcases ih _ _ h with h1 | h1
      · injection h1 with h1; exact Or.inr (by simp [h1])
      · exact Or.inr (List.mem_cons_of_mem _ h1)
    | some a =>
      rcases ih _ _ h with h1 | h1
      · injection h1 with h1
        by_cases hlt : x.1 < a.1
        · simp [hlt] at h1; exact Or.inr (by simp [h1])
        · simp [hlt] at h1; exact Or.inl (by simp [h1])
      · exact Or.inr (List.mem_cons_of_mem _ h1)

theorem pickMin_le (l : List (Nat × Nat × Nat)) :
    ∀ acc e, pickMin acc l = some e →
      (∀ a, acc = some a → e.1 ≤ a.1) ∧ ∀ x ∈ l, e.1 ≤ x.1 := by
  induction l with
  | nil =>
    intro acc e h
    simp [pickMin] at h
    refine ⟨fun a ha => ?_, by simp⟩
    rw [h] at ha
    injection ha with ha
    subst ha
    exact Nat.le_refl _
  | cons x xs ih =>
    intro acc e h
    cases acc with
    | none =>
      obtain ⟨h1, h2⟩ := ih _ _ h
      have hx := h1 x rfl
      refine ⟨fun a ha => by simp at ha, ?_⟩
      intro y hy
      rcases List.mem_cons.mp hy with rfl | hy
      · exact hx
      · exact h2 y hy
    | some a =>
      obtain ⟨h1, h2⟩ := ih _ _ h
      have hm := h1 _ rfl
      by_cases hlt : x.1 < a.1
      · simp only [if_pos hlt] at hm
        refine ⟨fun b hb => by injection hb with hb; subst hb; omega, ?_⟩
        intro y hy
        rcases List.mem_cons.mp hy with rfl | hy
        · exact hm
        · exact h2 y hy
      · simp only [if_neg hlt] at hm
        refine ⟨fun b hb => by injection hb with hb; subst hb; exact hm, ?_⟩
        intro y hy
        rcases List.mem_cons.mp hy with rfl | hy
        · omega
        · exact h2 y hy

theorem heapHead_eq_none_iff (ss : List CountStream) :
    heapHead ss = none ↔ ∀ s ∈ ss, s = [] := by
  rw [← headsFrom_eq_nil_iff 0]
  unfold heapHead
  constructor
  · intro h
    cases hl : headsFrom 0 ss with
    | nil => rfl
    | cons e es =>
      rw [hl] at h
      exact absurd h (by simpa [pickMin] using pickMin_ne_none e es)
  · intro h; rw [h]; rfl

theorem heapHead_mem (ss : List CountStream) (e : Nat × Nat × Nat)
    (h : heapHead ss = some e) : e ∈ headsFrom 0 ss := by
  rcases pickMin_mem _ _ _ h with h1 | h1
  · exact absurd h1 (by simp)
  · exact h1

theorem heapHead_min (ss : List CountStream) (e : Nat × Nat × Nat)
    (h : heapHead ss = some e) : ∀ x ∈ headsFrom 0 ss, e.1 ≤ x.1 :=
  (pickMin_le _ _ _ h).2

theorem heapHead_get (ss : List CountStream) (k i v : Nat)
    (h : heapHead ss = some (k, i, v)) : ∃ t, ss[i]? = some ((k, v) :: t) := by
  have hm := heapHead_mem ss _ h
  rw [mem_headsFrom] at hm
  obtain ⟨d, t, hd, hget⟩ := hm
  have hid : i = d := by omega
  exact ⟨t, by rw [hid]; exact hget⟩

/-! ### Measure and pop/advance lemmas -/

theorem totalLen_set (ss : List CountStream) (i : Nat) (x s : CountStream)
    (h : ss[i]? = some s) : totalLen (ss.set i x) + s.length = totalLen ss + x.length := by
  induction ss generalizing i with
  | nil => simp at h
  | cons a rest ih =>
    cases i with
    | zero =>
      simp only [List.getElem?_cons_zero, Option.some.injEq] at h
      subst h
      simp only [List.set_cons_zero, totalLen, List.map_cons, List.sum_cons]
      omega
    | succ i =>
      simp only [List.getElem?_cons_succ] at h
      have := ih i h
      simp only [List.set_cons_succ, totalLen, List.map_cons, List.sum_cons] at this ⊢
      omega

theorem length_popAdvance (ss : List CountStream) (i : Nat) :
    (popAdvance ss i).length = ss.length := by
  simp [popAdvance]

theorem popAdvance_getElem_self (ss : List CountStream) (i : Nat) (s : CountStream)
    (h : ss[i]? = some s) : (popAdvance ss i)[i]? = some s.tail := by
  have hi : i < ss.length := (List.getElem?_eq_some_iff.mp h).1
  simp only [popAdvance, h, Option.getD_some]
  exact List.getElem?_set_self hi

theorem popAdvance_getElem_ne (ss : List CountStream) (i j : Nat) (h : i ≠ j) :
    (popAdvance ss i)[j]? = ss[j]? := by
  simp [popAdvance, List.getElem?_set_ne h]

theorem totalLen_popAdvance (ss : List CountStream) (i k v : Nat) (t : CountStream)
    (h : ss[i]? = some ((k, v) :: t)) :
    totalLen (popAdvance ss i) + 1 = totalLen ss := by
  have hset := totalLen_set ss i t ((k, v) :: t) h
  simp only [popAdvance, h, Option.getD_some, List.tail_cons]
  simp only [List.length_cons] at hset
  omega

theorem allAsc_popAdvance (ss : List CountStream) (i : Nat) (h : AllAsc ss) :
    AllAsc (popAdvance ss i) := by
  intro s hs
  obtain ⟨j, hj⟩ := List.mem_iff_getElem?.mp hs
  by_cases hij : i = j
  · subst hij
    cases hg : ss[i]? with
    | none =>
      have hlen : ss.length ≤ i := List.getElem?_eq_none_iff.mp hg
      have hnone : (popAdvance ss i)[i]? = none :=
        List.getElem?_eq_none (by rw [length_popAdvance]; exact hlen)
      rw [hnone] at hj
      exact absurd hj (by simp)
    | some s0 =>
      rw [popAdvance_getElem_self _ _ _ hg] at hj
      injection hj with hj
      subst hj
      have hasc : Asc s0 := h s0 (List.mem_iff_getElem?.mpr ⟨i, hg⟩)
      cases s0 with
      | nil => exact List.Pairwise.nil
      | cons p t => exact (List.pairwise_cons.mp hasc).2
  · rw [popAdvance_getElem_ne _ _ _ hij] at hj
    exact h s (List.mem_iff_getElem?.mpr ⟨j, hj⟩)

theorem headsFrom_popAdvance_le (key : Nat) (ss : List CountStream) (i : Nat)
    (hasc : AllAsc ss)
    (hget : ∃ v t, ss[i]? = some ((key, v) :: t))
    (hlb : ∀ x ∈ headsFrom 0 ss, key ≤ x.1) :
    ∀ x ∈ headsFrom 0 (popAdvance ss i), key ≤ x.1 := by
  rintro ⟨xk, xi, xv⟩ hx
  rw [mem_headsFrom] at hx
  obtain ⟨d, t2, hd, hx⟩ := hx
  by_cases hid : i = d
  · subst hid
    obtain ⟨v, t, hget⟩ := hget
    rw [popAdvance_getElem_self _ _ _ hget] at hx
    simp only [List.tail_cons] at hx
    injection hx with hx
    have hs : Asc ((key, v) :: t) := hasc _ (List.mem_iff_getElem?.mpr ⟨i, hget⟩)
    have hk := (List.pairwise_cons.mp hs).1 (xk, xv) (by rw [hx]; simp)
    exact Nat.le_of_lt hk
  · rw [popAdvance_getElem_ne _ _ _ hid] at hx
    exact hlb (xk, xi, xv) ((mem_headsFrom xk xi xv 0 ss).mpr ⟨d, t2, hd, hx⟩)

/-! ### The net effect of advancing all streams whose head matches a key -/

theorem advanceOne_tail (key v : Nat) (t : CountStream) (h : Asc ((key, v) :: t)) :
    advanceOne key t = t := by
  cases t with
  | nil => rfl
  | cons p t2 =>
    obtain ⟨k2, v2⟩ := p
    have hk := (List.pairwise_cons.mp h).1 (k2, v2) (by simp)
    simp only at hk
    simp only [advanceOne]
    rw [if_neg (by omega)]

theorem fillOne_cons_self (key v c : Nat) (t : CountStream) :
    fillOne key c ((key, v) :: t) = v := by
  simp [fillOne]

theorem fillOne_tail (key v c : Nat) (t : CountStream) (h : Asc ((key, v) :: t)) :
    fillOne key c t = c := by
  cases t with
  | nil => rfl
  | cons p t2 =>
    obtain ⟨k2, v2⟩ := p
    have hk := (List.pairwise_cons.mp h).1 (k2, v2) (by simp)
    simp only at hk
    simp only [fillOne]
    rw [if_neg (by omega)]

theorem advanceAll_getElem (k : Nat) (ss : List CountStream) (i : Nat) :
    (advanceAll k ss)[i]? = ss[i]?.map (advanceOne k) := by
  simp [advanceAll]

theorem length_advanceAll (k : Nat) (ss : List CountStream) :
    (advanceAll k ss).length = ss.length := by
  simp [advanceAll]

theorem advanceAll_popAdvance (key v : Nat) (t : CountStream) (ss : List CountStream)
    (i : Nat) (hget : ss[i]? = some ((key, v) :: t)) (hasc : AllAsc ss) :
    advanceAll key (popAdvance ss i) = advanceAll key ss := by
  apply List.ext_getElem?
  intro j
  rw [advanceAll_getElem, advanceAll_getElem]
  by_cases hij : i = j
  · subst hij
    rw [popAdvance_getElem_self _ _ _ hget, hget]
    simp only [List.tail_cons, Option.map_some']
    have hs : Asc ((key, v) :: t) := hasc _ (List.mem_iff_getElem?.mpr ⟨i, hget⟩)
    rw [advanceOne_tail key v t hs]
    simp [advanceOne]
  · rw [popAdvance_getElem_ne _ _ _ hij]

theorem fillCounts_popAdvance (key v : Nat) (t : CountStream) (ss : List CountStream)
    (counts : List Nat) (i : Nat)
    (hget : ss[i]? = some ((key, v) :: t)) (hasc : AllAsc ss)
    (hlen : counts.length = ss.length) :
    fillCounts key (counts.set i v) (popAdvance ss i) = fillCounts key counts ss := by
  apply List.ext_getElem?
  intro j
  simp only [fillCounts, List.getElem?_zipWith]
  by_cases hij : i = j
  · subst hij
    have hi : i < ss.length := (List.getElem?_eq_some_iff.mp hget).1
    obtain ⟨c, hc⟩ : ∃ c, counts[i]? = some c := by
      cases hc0 : counts[i]? with
      | none =>
        have := List.getElem?_eq_none_iff.mp hc0
        omega
      | some c => exact ⟨c, rfl⟩
    rw [List.getElem?_set_self (by omega), popAdvance_getElem_self _ _ _ hget, hget, hc]
    simp only [List.tail_cons]
    have hs : Asc ((key, v) :: t) := hasc _ (List.mem_iff_getElem?.mpr ⟨i, hget⟩)
    rw [fillOne_tail key v v t hs, fillOne_cons_self]
  · rw [List.getElem?_set_ne hij, popAdvance_getElem_ne _ _ _ hij]

theorem advanceAll_eq_self (key : Nat) :
    ∀ (ss : List CountStream) (j : Nat),
      (∀ x ∈ headsFrom j ss, x.1 ≠ key) → advanceAll key ss = ss
  | [], _, _ => rfl
  | [] :: rest, j, h => by
    have ihr := advanceAll_eq_self key rest (j + 1)
      (fun x hx => h x (by rw [headsFrom]; exact hx))
    simp only [advanceAll, List.map_cons] at ihr ⊢
    rw [ihr]
    rfl
  | ((k2, v) :: t) :: rest, j, h => by
    have hne : k2 ≠ key := h (k2, j, v) (by rw [headsFrom]; simp)
    have ihr := advanceAll_eq_self key rest (j + 1)
      (fun x hx => h x (by rw [headsFrom]; exact List.mem_cons_of_mem _ hx))
    simp only [advanceAll, List.map_cons] at ihr ⊢
    rw [ihr, show advanceOne key ((k2, v) :: t) = (k2, v) :: t by simp [advanceOne, hne]]

theorem fillCounts_eq_self (key : Nat) :
    ∀ (ss : List CountStream) (counts : List Nat) (j : Nat),
      counts.length = ss.length →
      (∀ x ∈ headsFrom j ss, x.1 ≠ key) → fillCounts key counts ss = counts
  | [], counts, _, hlen, _ => by
    cases counts with
    | nil => rfl
    | cons c cs => simp at hlen
  | s :: rest, [], j, hlen, h => by simp at hlen
  | [] :: rest, c :: cs, j, hlen, h => by
    have ihr := fillCounts_eq_self key rest cs (j + 1) (by simpa using hlen)
      (fun x hx => h x (by rw [headsFrom]; exact hx))
    simp only [fillCounts, List.zipWith_cons_cons] at ihr ⊢
    rw [ihr]
    rfl
  | ((k2, v) :: t) :: rest, c :: cs, j, hlen, h => by
    have hne : k2 ≠ key := h (k2, j, v) (by rw [headsFrom]; simp)
    have ihr := fillCounts_eq_self key rest cs (j + 1) (by simpa using hlen)
      (fun x hx => h x (by rw [headsFrom]; exact List.mem_cons_of_mem _ hx))
    simp only [fillCounts, List.zipWith_cons_cons] at ihr ⊢
    rw [ihr, show fillOne key c ((k2, v) :: t) = c by simp [fillOne, hne]]

theorem totalLen_eq_zero_iff (ss : List CountStream) :
    totalLen ss = 0 ↔ ∀ s ∈ ss, s = [] := by
  unfold totalLen
  rw [List.sum_eq_zero_iff]
  constructor
  · intro h s hs
    exact List.length_eq_zero.mp (h _ (List.mem_map_of_mem _ hs))
  · intro h x hx
    obtain ⟨s, hs, rfl⟩ := List.mem_map.mp hx
    rw [h s hs]
    rfl

theorem length_advanceOne_le (k : Nat) (s : CountStream) :
    (advanceOne k s).length ≤ s.length := by
  cases s with
  | nil => exact Nat.le_refl _
  | cons p t =>
    obtain ⟨k2, v⟩ := p
    simp only [advanceOne]
    by_cases h : k2 = k
    · rw [if_pos h]; simp
    · rw [if_neg h]

theorem totalLen_advanceAll_le (k : Nat) (ss : List CountStream) :
    totalLen (advanceAll k ss) ≤ totalLen ss := by
  induction ss with
  | nil => exact Nat.le_refl _
  | cons s rest ih =>
    simp only [advanceAll, List.map_cons, totalLen, List.sum_cons] at ih ⊢
    have := length_advanceOne_le k s
    omega

theorem totalLen_advanceAll_lt (key : Nat) (ss : List CountStream) (i : Nat)
    (h : ∃ v t, ss[i]? = some ((key, v) :: t)) :
    totalLen (advanceAll key ss) < totalLen ss := by
  induction ss generalizing i with
  | nil => obtain ⟨v, t, hvt⟩ := h; simp at hvt
  | cons s rest ih =>
    obtain ⟨v, t, hvt⟩ := h
    cases i with
    | zero =>
      simp only [List.getElem?_cons_zero, Option.some.injEq] at hvt
      subst hvt
      simp only [advanceAll, List.map_cons, totalLen, List.sum_cons]
      have h1 := totalLen_advanceAll_le key rest
      have h2 : (advanceOne key ((key, v) :: t)).length = t.length := by
        simp [advanceOne]
      simp only [totalLen, advanceAll] at h1
      simp only [advanceAll] at h2 ⊢
      rw [h2]
      simp only [List.length_cons]
      omega
    | succ i =>
      simp only [List.getElem?_cons_succ] at hvt
      have := ih i ⟨v, t, hvt⟩
      simp only [advanceAll, List.map_cons, totalLen, List.sum_cons] at this ⊢
      have := length_advanceOne_le key s
      omega


/-! ### Drain loop characterization -/

theorem drainLoopF_spec :
    ∀ (fuel key : Nat) (ss : List CountStream) (counts : List Nat) (dE : Nat),
      totalLen ss ≤ fuel →
      counts.length = ss.length →
      AllAsc ss →
      (∀ x ∈ headsFrom 0 ss, key ≤ x.1) →
      (∃ e, heapHead ss = some e ∧ e.1 = key) →
      drainLoopF fuel key ss counts dE =
        (advanceAll key ss, fillCounts key counts ss,
         dE + if headsFrom 0 (advanceAll key ss) = [] then 1 else 0) := by
  intro fuel
  induction fuel with
  | zero =>
    intro key ss counts dE hfuel hlen hasc hlb hhd
    obtain ⟨e, he, hek⟩ := hhd
    have hall : ∀ s ∈ ss, s = [] := (totalLen_eq_zero_iff ss).mp (Nat.le_zero.mp hfuel)
    rw [(heapHead_eq_none_iff ss).mpr hall] at he
    exact absurd he (by simp)
  | succ fuel ih =>
    intro key ss counts dE hfuel hlen hasc hlb hhd
    obtain ⟨e, he, hek⟩ := hhd
    obtain ⟨k, i, v⟩ := e
    simp only at hek
    subst hek
    obtain ⟨t, hget⟩ := heapHead_get ss k i v he
    have hi : i < ss.length := (List.getElem?_eq_some_iff.mp hget).1
    have hasc2 : AllAsc (popAdvance ss i) := allAsc_popAdvance ss i hasc
    have hlen2 : (counts.set i v).length = (popAdvance ss i).length := by
      rw [List.length_set, length_popAdvance]; exact hlen
    have hlb2 : ∀ x ∈ headsFrom 0 (popAdvance ss i), k ≤ x.1 :=
      headsFrom_popAdvance_le k ss i hasc ⟨v, t, hget⟩ hlb
    have hfuel2 : totalLen (popAdvance ss i) ≤ fuel := by
      have := totalLen_popAdvance ss i k v t hget
      omega
    have hAeq : advanceAll k (popAdvance ss i) = advanceAll k ss :=
      advanceAll_popAdvance k v t ss i hget hasc
    have hFeq : fillCounts k (counts.set i v) (popAdvance ss i) = fillCounts k counts ss :=
      fillCounts_popAdvance k v t ss counts i hget hasc hlen
    simp only [drainLoopF, he]
    cases hh2 : heapHead (popAdvance ss i) with
    | none =>
      simp only
      have hall2 : ∀ s ∈ popAdvance ss i, s = [] := (heapHead_eq_none_iff _).mp hh2
      have hh2nil : headsFrom 0 (popAdvance ss i) = [] := (headsFrom_eq_nil_iff 0 _).mpr hall2
      have hA2 : advanceAll k (popAdvance ss i) = popAdvance ss i :=
        advanceAll_eq_self k (popAdvance ss i) 0 (fun x hx => by rw [hh2nil] at hx; simp at hx)
      have hF2 : fillCounts k (counts.set i v) (popAdvance ss i) = counts.set i v :=
        fillCounts_eq_self k (popAdvance ss i) (counts.set i v) 0 hlen2
          (fun x hx => by rw [hh2nil] at hx; simp at hx)
      rw [← hAeq, hA2, ← hFeq, hF2]
      rw [if_pos hh2nil]
    | some e2 =>
      by_cases hk2 : e2.1 = k
      · simp only [if_pos hk2]
        rw [ih k (popAdvance ss i) (counts.set i v) dE hfuel2 hlen2 hasc2 hlb2 ⟨e2, hh2, hk2⟩]
        rw [hAeq, hFeq]
      · simp only [if_neg hk2]
        have hmem2 : e2 ∈ headsFrom 0 (popAdvance ss i) := heapHead_mem _ _ hh2
        have hke2 : k ≤ e2.1 := hlb2 e2 hmem2
        have hmin2 := heapHead_min _ _ hh2
        have hnom : ∀ x ∈ headsFrom 0 (popAdvance ss i), x.1 ≠ k := by
          intro x hx hxk
          have := hmin2 x hx
          omega
        have hA2 : advanceAll k (popAdvance ss i) = popAdvance ss i :=
          advanceAll_eq_self k (popAdvance ss i) 0 hnom
        have hF2 : fillCounts k (counts.set i v) (popAdvance ss i) = counts.set i v :=
          fillCounts_eq_self k (popAdvance ss i) (counts.set i v) 0 hlen2 hnom
        have hne2 : headsFrom 0 (popAdvance ss i) ≠ [] := by
          intro hcon
          rw [hcon] at hmem2
          simp at hmem2
        rw [← hAeq, hA2, ← hFeq, hF2, if_neg hne2]
        rfl

/-! ### Sorted duplicate-free key lists -/

theorem mem_insertKey (k x : Nat) (l : List Nat) : x ∈ insertKey k l ↔ x = k ∨ x ∈ l := by
  induction l with
  | nil => simp [insertKey]
  | cons a as ih =>
    simp only [insertKey]
    by_cases h1 : k < a
    · rw [if_pos h1]
      simp [List.mem_cons]
    · rw [if_neg h1]
      by_cases h2 : k = a
      · rw [if_pos h2]
        subst h2
        simp only [List.mem_cons]
        tauto
      · rw [if_neg h2]
        simp only [List.mem_cons, ih]
        tauto

theorem pairwise_insertKey (k : Nat) (l : List Nat) (h : List.Pairwise (· < ·) l) :
    List.Pairwise (· < ·) (insertKey k l) := by
  induction l with
  | nil => simp [insertKey]
  | cons a as ih =>
    obtain ⟨ha, has⟩ := List.pairwise_cons.mp h
    simp only [insertKey]
    by_cases h1 : k < a
    · rw [if_pos h1]
      refine List.pairwise_cons.mpr ⟨?_, h⟩
      intro b hb
      rcases List.mem_cons.mp hb with rfl | hb
      · exact h1
      · exact Nat.lt_trans h1 (ha b hb)
    · rw [if_neg h1]
      by_cases h2 : k = a
      · rw [if_pos h2]
        exact h
      · rw [if_neg h2]
        refine List.pairwise_cons.mpr ⟨?_, ih has⟩
        intro b hb
        rcases (mem_insertKey k b as).mp hb with rfl | hb
        · omega
        · exact ha b hb

theorem pairwise_sortDedup (l : List Nat) : List.Pairwise (· < ·) (sortDedup l) := by
  induction l with
  | nil => exact List.Pairwise.nil
  | cons a as ih => simpa [sortDedup] using pairwise_insertKey a _ ih

theorem mem_sortDedup (l : List Nat) (x : Nat) : x ∈ sortDedup l ↔ x ∈ l := by
  induction l with
  | nil => simp [sortDedup]
  | cons a as ih =>
    show x ∈ insertKey a (sortDedup as) ↔ x ∈ a :: as
    rw [mem_insertKey]
    simp [ih]

theorem sorted_nodup_ext :
    ∀ (l1 l2 : List Nat), List.Pairwise (· < ·) l1 → List.Pairwise (· < ·) l2 →
      (∀ x, x ∈ l1 ↔ x ∈ l2) → l1 = l2
  | [], [], _, _, _ => rfl
  | [], b :: l2, _, _, hm => by
    have := (hm b).mpr (by simp)
    simp at this
  | a :: l1, [], _, _, hm => by
    have := (hm a).mp (by simp)
    simp at this
  | a :: l1, b :: l2, h1, h2, hm => by
    obtain ⟨ha, h1t⟩ := List.pairwise_cons.mp h1
    obtain ⟨hb, h2t⟩ := List.pairwise_cons.mp h2
    have hab : a = b := by
      rcases List.mem_cons.mp ((hm a).mp (by simp)) with h | h
      · exact h
      · rcases List.mem_cons.mp ((hm b).mpr (by simp)) with hx | hx
        · omega
        · have hba := ha b hx
          have hab2 := hb a h
          omega
    subst hab
    have hmt : ∀ x, x ∈ l1 ↔ x ∈ l2 := by
      intro x
      constructor
      · intro hx
        have hax : a < x := ha x hx
        rcases List.mem_cons.mp ((hm x).mp (List.mem_cons_of_mem _ hx)) with h | h
        · omega
        · exact h
      · intro hx
        have hax : a < x := hb x hx
        rcases List.mem_cons.mp ((hm x).mpr (List.mem_cons_of_mem _ hx)) with h | h
        · omega
        · exact h
    rw [sorted_nodup_ext l1 l2 h1t h2t hmt]

theorem mem_keysOf (ss : List CountStream) (k : Nat) :
    k ∈ keysOf ss ↔ ∃ s ∈ ss, ∃ v, (k, v) ∈ s := by
  unfold keysOf
  rw [List.mem_flatten]
  constructor
  · rintro ⟨l, hl, hk⟩
    obtain ⟨s, hs, rfl⟩ := List.mem_map.mp hl
    obtain ⟨⟨k1, v⟩, hp, hpk⟩ := List.mem_map.mp hk
    simp only at hpk
    subst hpk
    exact ⟨s, hs, v, hp⟩
  · rintro ⟨s, hs, v, hv⟩
    exact ⟨s.map Prod.fst, List.mem_map_of_mem _ hs, List.mem_map_of_mem _ hv⟩

theorem keysOf_eq_nil (ss : List CountStream) (h : ∀ s ∈ ss, s = []) :
    keysOf ss = [] := by
  rw [List.eq_nil_iff_forall_not_mem]
  intro x hx
  rw [mem_keysOf] at hx
  obtain ⟨s, hs, v, hv⟩ := hx
  rw [h s hs] at hv
  simp at hv

theorem specGroups_eq_nil (ss : List CountStream) (h : ∀ s ∈ ss, s = []) :
    specGroups ss = [] := by
  unfold specGroups unionKeys
  rw [keysOf_eq_nil ss h]
  rfl


/-! ### Keys and lookups across one group advance -/

theorem asc_advanceOne (k : Nat) (s : CountStream) (h : Asc s) : Asc (advanceOne k s) := by
  cases s with
  | nil => exact List.Pairwise.nil
  | cons p t =>
    obtain ⟨k2, v⟩ := p
    simp only [advanceOne]
    by_cases h2 : k2 = k
    · rw [if_pos h2]
      exact (List.pairwise_cons.mp h).2
    · rw [if_neg h2]
      exact h

theorem allAsc_advanceAll (k : Nat) (ss : List CountStream) (h : AllAsc ss) :
    AllAsc (advanceAll k ss) := by
  intro s hs
  obtain ⟨s0, hs0, rfl⟩ := List.mem_map.mp hs
  exact asc_advanceOne k s0 (h s0 hs0)

theorem keys_lb (ss : List CountStream) (e : Nat × Nat × Nat)
    (hasc : AllAsc ss) (he : heapHead ss = some e) :
    ∀ s ∈ ss, ∀ p ∈ s, e.1 ≤ p.1 := by
  intro s hs p hp
  obtain ⟨d, hd⟩ := List.mem_iff_getElem?.mp hs
  cases s with
  | nil => simp at hp
  | cons q t =>
    obtain ⟨kq, vq⟩ := q
    have hhd : (kq, d, vq) ∈ headsFrom 0 ss :=
      (mem_headsFrom kq d vq 0 ss).mpr ⟨d, t, by omega, hd⟩
    have h1 : e.1 ≤ kq := heapHead_min ss e he _ hhd
    rcases List.mem_cons.mp hp with rfl | hp
    · exact h1
    · have := (List.pairwise_cons.mp (hasc _ hs)).1 p hp
      omega

theorem keysOf_advanceAll_gt (k : Nat) (ss : List CountStream)
    (hasc : AllAsc ss) (hlb : ∀ s ∈ ss, ∀ p ∈ s, k ≤ p.1) :
    ∀ x ∈ keysOf (advanceAll k ss), k < x := by
  intro x hx
  rw [mem_keysOf] at hx
  obtain ⟨s1, hs1, v, hv⟩ := hx
  obtain ⟨s, hs, rfl⟩ := List.mem_map.mp hs1
  cases s with
  | nil => simp [advanceOne] at hv
  | cons q t =>
    obtain ⟨kq, vq⟩ := q
    have hasct := hasc _ hs
    by_cases hqk : kq = k
    · subst hqk
      simp only [advanceOne, if_pos rfl] at hv
      have := (List.pairwise_cons.mp hasct).1 (x, v) hv
      simpa using this
    · simp only [advanceOne, if_neg hqk] at hv
      have hq : k ≤ kq := hlb _ hs (kq, vq) (by simp)
      rcases List.mem_cons.mp hv with heq | hv
      · injection heq with h1 h2
        omega
      · have := (List.pairwise_cons.mp hasct).1 (x, v) hv
        simp only at this
        omega

theorem mem_keysOf_advanceAll (k : Nat) (ss : List CountStream) (x : Nat) :
    x ∈ keysOf ss ↔ (x = k ∧ x ∈ keysOf ss) ∨ x ∈ keysOf (advanceAll k ss) := by
  constructor
  · intro hx
    by_cases hxk : x = k
    · exact Or.inl ⟨hxk, hx⟩
    · right
      rw [mem_keysOf] at hx ⊢
      obtain ⟨s, hs, v, hv⟩ := hx
      refine ⟨advanceOne k s, List.mem_map_of_mem _ hs, v, ?_⟩
      cases s with
      | nil => simp at hv
      | cons q t =>
        obtain ⟨kq, vq⟩ := q
        by_cases hqk : kq = k
        · subst hqk
          simp only [advanceOne, if_pos rfl]
          rcases List.mem_cons.mp hv with heq | hv
          · injection heq with h1 h2
            omega
          · exact hv
        · simpa only [advanceOne, if_neg hqk] using hv
  · rintro (⟨_, hx⟩ | hx)
    · exact hx
    · rw [mem_keysOf] at hx ⊢
      obtain ⟨s1, hs1, v, hv⟩ := hx
      obtain ⟨s, hs, rfl⟩ := List.mem_map.mp hs1
      refine ⟨s, hs, v, ?_⟩
      cases s with
      | nil => simp [advanceOne] at hv
      | cons q t =>
        obtain ⟨kq, vq⟩ := q
        by_cases hqk : kq = k
        · subst hqk
          simp only [advanceOne, if_pos rfl] at hv
          exact List.mem_cons_of_mem _ hv
        · simpa only [advanceOne, if_neg hqk] using hv

theorem unionKeys_cons (k : Nat) (ss : List CountStream)
    (hasc : AllAsc ss) (hk : k ∈ keysOf ss) (hlb : ∀ s ∈ ss, ∀ p ∈ s, k ≤ p.1) :
    unionKeys ss = k :: unionKeys (advanceAll k ss) := by
  apply sorted_nodup_ext
  · exact pairwise_sortDedup _
  · refine List.pairwise_cons.mpr ⟨?_, pairwise_sortDedup _⟩
    intro b hb
    simp only [unionKeys] at hb
    rw [mem_sortDedup] at hb
    exact keysOf_advanceAll_gt k ss hasc hlb b hb
  · intro x
    simp only [unionKeys]
    rw [mem_sortDedup, List.mem_cons, mem_sortDedup]
    rw [mem_keysOf_advanceAll k ss x]
    constructor
    · rintro (⟨rfl, _⟩ | hx)
      · exact Or.inl rfl
      · exact Or.inr hx
    · rintro (rfl | hx)
      · exact Or.inl ⟨rfl, hk⟩
      · exact Or.inr hx

theorem lookupKey_head (k v : Nat) (t : CountStream) :
    lookupKey ((k, v) :: t) k = v := by
  simp [lookupKey, List.find?_cons_of_pos]

theorem lookupKey_not_mem (s : CountStream) (k : Nat)
    (h : ∀ p ∈ s, p.1 ≠ k) : lookupKey s k = 0 := by
  unfold lookupKey
  rw [List.find?_eq_none.mpr]
  · rfl
  · intro p hp
    simpa using h p hp

theorem fillOne_eq_lookupKey (k : Nat) (s : CountStream)
    (hasc : Asc s) (hlb : ∀ p ∈ s, k ≤ p.1) :
    fillOne k 0 s = lookupKey s k := by
  cases s with
  | nil => rfl
  | cons q t =>
    obtain ⟨kq, vq⟩ := q
    by_cases hqk : kq = k
    · subst hqk
      rw [lookupKey_head]
      simp [fillOne]
    · have hq : k ≤ kq := hlb (kq, vq) (by simp)
      have hlk : lookupKey ((kq, vq) :: t) k = 0 := by
        apply lookupKey_not_mem
        intro p hp
        rcases List.mem_cons.mp hp with rfl | hp
        · simpa using hqk
        · have := (List.pairwise_cons.mp hasc).1 p hp
          simp only at this
          omega
      rw [hlk]
      simp [fillOne, hqk]

theorem fillCounts_replicate (k : Nat) :
    ∀ (ss : List CountStream),
      AllAsc ss → (∀ s ∈ ss, ∀ p ∈ s, k ≤ p.1) →
      fillCounts k (List.replicate ss.length 0) ss = ss.map fun s => lookupKey s k
  | [], _, _ => rfl
  | s :: rest, hasc, hlb => by
    have ihr := fillCounts_replicate k rest
      (fun s1 h1 => hasc s1 (List.mem_cons_of_mem _ h1))
      (fun s1 h1 => hlb s1 (List.mem_cons_of_mem _ h1))
    simp only [List.length_cons, List.replicate_succ, fillCounts,
      List.zipWith_cons_cons, List.map_cons] at ihr ⊢
    rw [ihr, fillOne_eq_lookupKey k s (hasc s (by simp)) (hlb s (by simp))]

theorem lookupKey_advanceOne (k x : Nat) (s : CountStream) (hx : x ≠ k) :
    lookupKey (advanceOne k s) x = lookupKey s x := by
  cases s with
  | nil => rfl
  | cons q t =>
    obtain ⟨kq, vq⟩ := q
    by_cases hqk : kq = k
    · subst hqk
      have hadv : advanceOne kq ((kq, vq) :: t) = t := by simp [advanceOne]
      rw [hadv]
      unfold lookupKey
      rw [List.find?_cons_of_neg _ (by simp only [beq_iff_eq]; omega)]
    · have hid : advanceOne k ((kq, vq) :: t) = (kq, vq) :: t := by
        simp [advanceOne, hqk]
      rw [hid]


/-! ### The merge loop refines the specification groups -/

theorem mergeLoopF_spec :
    ∀ (fuel n : Nat) (ss : List CountStream),
      totalLen ss ≤ fuel → ss.length = n → AllAsc ss →
      mergeLoopF fuel n ss =
        (specGroups ss, if headsFrom 0 ss = [] then 0 else 1) := by
  intro fuel
  induction fuel with
  | zero =>
    intro n ss hfuel hn hasc
    have hall : ∀ s ∈ ss, s = [] := (totalLen_eq_zero_iff ss).mp (Nat.le_zero.mp hfuel)
    rw [specGroups_eq_nil ss hall, if_pos ((headsFrom_eq_nil_iff 0 ss).mpr hall)]
    rfl
  | succ fuel ih =>
    intro n ss hfuel hn hasc
    cases he : heapHead ss with
    | none =>
      have hall := (heapHead_eq_none_iff ss).mp he
      rw [specGroups_eq_nil ss hall, if_pos ((headsFrom_eq_nil_iff 0 ss).mpr hall)]
      simp [mergeLoopF, he]
    | some e =>
      obtain ⟨k, i, v⟩ := e
      obtain ⟨t, hget⟩ := heapHead_get ss k i v he
      have hlb : ∀ x ∈ headsFrom 0 ss, k ≤ x.1 := heapHead_min ss _ he
      have hklb : ∀ s ∈ ss, ∀ p ∈ s, k ≤ p.1 := keys_lb ss _ hasc he
      have hkmem : k ∈ keysOf ss := by
        rw [mem_keysOf]
        exact ⟨(k, v) :: t, List.mem_iff_getElem?.mpr ⟨i, hget⟩, v, by simp⟩
      have hdrain := drainLoopF_spec (totalLen ss) k ss (List.replicate n 0) 0
        (Nat.le_refl _) (by rw [List.length_replicate, hn]) hasc hlb ⟨(k, i, v), he, rfl⟩
      have hlt : totalLen (advanceAll k ss) < totalLen ss :=
        totalLen_advanceAll_lt k ss i ⟨v, t, hget⟩
      have hrest := ih n (advanceAll k ss) (by omega)
        (by rw [length_advanceAll]; exact hn) (allAsc_advanceAll k ss hasc)
      have hcounts : fillCounts k (List.replicate n 0) ss =
          ss.map fun s => lookupKey s k := by
        rw [← hn]
        exact fillCounts_replicate k ss hasc hklb
      have hspec : specGroups ss =
          (k, ss.map fun s => lookupKey s k) :: specGroups (advanceAll k ss) := by
        unfold specGroups
        rw [unionKeys_cons k ss hasc hkmem hklb, List.map_cons]
        congr 1
        apply List.map_congr_left
        intro x hx
        have hgt : k < x := by
          simp only [unionKeys] at hx
          rw [mem_sortDedup] at hx
          exact keysOf_advanceAll_gt k ss hasc hklb x hx
        congr 1
        unfold advanceAll
        rw [List.map_map]
        apply List.map_congr_left
        intro s hs
        exact (lookupKey_advanceOne k x s (by omega)).symm
      have hne : headsFrom 0 ss ≠ [] := by
        intro hcon
        have hm := heapHead_mem ss _ he
        rw [hcon] at hm
        simp at hm
      simp only [mergeLoopF, he, hdrain, hrest]
      rw [hspec, hcounts, if_neg hne]
      by_cases hadv : headsFrom 0 (advanceAll k ss) = []
      · simp [hadv]
      · simp [hadv]


theorem mergeGroupsList_eq_spec (ss : List CountStream) (hasc : AllAsc ss) :
    mergeGroupsList ss = specGroups ss := by
  unfold mergeGroupsList mergeGroupsAll
  rw [mergeLoopF_spec (totalLen ss) ss.length ss (Nat.le_refl _) rfl hasc]

theorem mergeGroupsAll_snd (ss : List CountStream) (hasc : AllAsc ss) :
    (mergeGroupsAll ss).2 = if headsFrom 0 ss = [] then 0 else 1 := by
  unfold mergeGroupsAll
  rw [mergeLoopF_spec (totalLen ss) ss.length ss (Nat.le_refl _) rfl hasc]

theorem mem_unionKeys (ss : List CountStream) (k : Nat) :
    k ∈ unionKeys ss ↔ ∃ s ∈ ss, ∃ v, (k, v) ∈ s := by
  unfold unionKeys
  rw [mem_sortDedup, mem_keysOf]

theorem pairwise_unionKeys (ss : List CountStream) :
    List.Pairwise (· < ·) (unionKeys ss) :=
  pairwise_sortDedup _

theorem lookupKey_of_mem (s : CountStream) (k v : Nat)
    (hasc : Asc s) (h : (k, v) ∈ s) : lookupKey s k = v := by
  induction s with
  | nil => simp at h
  | cons q t ih =>
    obtain ⟨kq, vq⟩ := q
    by_cases hqk : kq = k
    · subst hqk
      have hv : v = vq := by
        rcases List.mem_cons.mp h with heq | hmem
        · exact congrArg Prod.snd heq
        · have := (List.pairwise_cons.mp hasc).1 (kq, v) hmem
          simp at this
      subst hv
      exact lookupKey_head kq v t
    · have hstep : lookupKey ((kq, vq) :: t) k = lookupKey t k := by
        unfold lookupKey
        rw [List.find?_cons_of_neg _ (by simp only [beq_iff_eq]; omega)]
      rw [hstep]
      apply ih (List.pairwise_cons.mp hasc).2
      rcases List.mem_cons.mp h with heq | hmem
      · injection heq with h1 h2
        omega
      · exact hmem

theorem lookupKey_of_not_mem (s : CountStream) (k : Nat)
    (h : ∀ v, (k, v) ∉ s) : lookupKey s k = 0 := by
  apply lookupKey_not_mem
  intro p hp hpk
  exact h p.2 (by rw [← hpk]; exact hp)

/-! ### Histogram lemmas -/

theorem sum_bumpInner (b : Nat) (l : Inner) (h : (l.any fun p => p.1 == b) = true) :
    ((bumpInner b l).map Prod.snd).sum = (l.map Prod.snd).sum + 1 := by
  induction l with
  | nil => simp at h
  | cons q t ih =>
    obtain ⟨b0, m⟩ := q
    by_cases hb : b0 = b
    · simp only [bumpInner, if_pos hb, List.map_cons, List.sum_cons]
      omega
    · simp only [bumpInner, if_neg hb, List.map_cons, List.sum_cons]
      have ht : (t.any fun p => p.1 == b) = true := by
        simp only [List.any_cons, Bool.or_eq_true] at h
        rcases h with h | h
        · simp only [beq_iff_eq] at h
          omega
        · exact h
      rw [ih ht]
      omega

theorem sum_innerIncr (b : Nat) (l : Inner) :
    ((innerIncr b l).map Prod.snd).sum = (l.map Prod.snd).sum + 1 := by
  unfold innerIncr
  by_cases h : (l.any fun p => p.1 == b) = true
  · rw [if_pos h]
    exact sum_bumpInner b l h
  · rw [if_neg h]
    simp only [List.map_cons, List.sum_cons]
    omega

theorem histSum_bumpOuter (a b : Nat) (h : Hist)
    (hp : (h.any fun x => x.1 == a) = true) :
    histSum (bumpOuter a b h) = histSum h + 1 := by
  induction h with
  | nil => simp at hp
  | cons q t ih =>
    obtain ⟨a0, inn⟩ := q
    by_cases ha : a0 = a
    · simp only [bumpOuter, if_pos ha, histSum, List.map_cons, List.sum_cons]
      have := sum_innerIncr b inn
      omega
    · simp only [bumpOuter, if_neg ha, histSum, List.map_cons, List.sum_cons]
      have ht : (t.any fun x => x.1 == a) = true := by
        simp only [List.any_cons, Bool.or_eq_true] at hp
        rcases hp with hp | hp
        · simp only [beq_iff_eq] at hp
          omega
        · exact hp
      have := ih ht
      simp only [histSum] at this
      omega

theorem histSum_coverage_incr (h : Hist) (a b : Nat) :
    histSum (coverage_incr h a b) = histSum h + 1 := by
  unfold coverage_incr
  by_cases hp : (h.any fun x => x.1 == a) = true
  · rw [if_pos hp]
    exact histSum_bumpOuter a b h hp
  · rw [if_neg hp]
    simp [histSum]
    omega

theorem histSum_foldl (l : List (Nat × Nat)) :
    ∀ h : Hist, histSum (l.foldl (fun h p => coverage_incr h p.1 p.2) h) =
      histSum h + l.length := by
  induction l with
  | nil => intro h; simp
  | cons p t ih =>
    intro h
    simp only [List.foldl_cons, List.length_cons]
    rw [ih (coverage_incr h p.1 p.2), histSum_coverage_incr]
    omega

theorem histSum_buildHist (l : List (Nat × Nat)) : histSum (buildHist l) = l.length := by
  unfold buildHist
  rw [histSum_foldl l []]
  simp [histSum]

theorem innerGet_cons_self (b m : Nat) (t : Inner) : innerGet ((b, m) :: t) b = m := by
  unfold innerGet
  rw [List.find?_cons_of_pos _ (by simp)]
  rfl

theorem innerGet_cons_ne (b0 m c1 : Nat) (t : Inner) (h : b0 ≠ c1) :
    innerGet ((b0, m) :: t) c1 = innerGet t c1 := by
  unfold innerGet
  rw [List.find?_cons_of_neg _ (by simp only [beq_iff_eq]; omega)]

theorem innerGet_not_any (l : Inner) (c1 : Nat)
    (h : ¬(l.any fun p => p.1 == c1) = true) : innerGet l c1 = 0 := by
  unfold innerGet
  rw [List.find?_eq_none.mpr]
  · rfl
  · intro p hp hpc
    exact h (List.any_eq_true.mpr ⟨p, hp, hpc⟩)

theorem any_tail_of_head_ne {β : Type} (q : Nat × β) (t : List (Nat × β)) (b : Nat)
    (h : ((q :: t).any fun p => p.1 == b) = true) (hq : q.1 ≠ b) :
    (t.any fun p => p.1 == b) = true := by
  simp only [List.any_cons, Bool.or_eq_true] at h
  rcases h with h | h
  · simp only [beq_iff_eq] at h
    omega
  · exact h

theorem innerGet_bumpInner (b c1 : Nat) (l : Inner)
    (h : (l.any fun p => p.1 == b) = true) :
    innerGet (bumpInner b l) c1 = innerGet l c1 + if c1 = b then 1 else 0 := by
  induction l with
  | nil => simp at h
  | cons q t ih =>
    obtain ⟨b0, m⟩ := q
    by_cases hb : b0 = b
    · subst hb
      have hbump : bumpInner b0 ((b0, m) :: t) = (b0, m + 1) :: t := by
        simp [bumpInner]
      rw [hbump]
      by_cases hc : c1 = b0
      · subst hc
        rw [innerGet_cons_self, innerGet_cons_self, if_pos rfl]
      · rw [innerGet_cons_ne _ _ _ _ (by omega), innerGet_cons_ne _ _ _ _ (by omega),
          if_neg hc]
        omega
    · have hbump : bumpInner b ((b0, m) :: t) = (b0, m) :: bumpInner b t := by
        simp [bumpInner, hb]
      rw [hbump]
      have ht := any_tail_of_head_ne (b0, m) t b h hb
      by_cases hc : c1 = b0
      · subst hc
        rw [innerGet_cons_self, innerGet_cons_self, if_neg (by omega)]
        omega
      · rw [innerGet_cons_ne _ _ _ _ (by omega), innerGet_cons_ne _ _ _ _ (by omega),
          ih ht]

theorem innerGet_innerIncr (b c1 : Nat) (l : Inner) :
    innerGet (innerIncr b l) c1 = innerGet l c1 + if c1 = b then 1 else 0 := by
  unfold innerIncr
  by_cases h : (l.any fun p => p.1 == b) = true
  · rw [if_pos h]
    exact innerGet_bumpInner b c1 l h
  · rw [if_neg h]
    by_cases hc : c1 = b
    · subst hc
      rw [innerGet_cons_self, innerGet_not_any l c1 h, if_pos rfl]
    · rw [innerGet_cons_ne _ _ _ _ (by omega), if_neg hc]
      omega

theorem histGet_cons (a0 : Nat) (inn : Inner) (t : Hist) (c0 c1 : Nat) :
    histGet ((a0, inn) :: t) c0 c1 =
      if a0 = c0 then innerGet inn c1 else histGet t c0 c1 := by
  unfold histGet
  by_cases ha : a0 = c0
  · rw [List.find?_cons_of_pos _ (by simp [ha]), if_pos ha]
  · rw [List.find?_cons_of_neg _ (by simp only [beq_iff_eq]; omega), if_neg ha]

theorem histGet_not_any (h : Hist) (c0 c1 : Nat)
    (hp : ¬(h.any fun x => x.1 == c0) = true) : histGet h c0 c1 = 0 := by
  unfold histGet
  rw [List.find?_eq_none.mpr]
  intro x hx hxc
  exact hp (List.any_eq_true.mpr ⟨x, hx, hxc⟩)

theorem histGet_bumpOuter (a b c0 c1 : Nat) (h : Hist)
    (hp : (h.any fun x => x.1 == a) = true) :
    histGet (bumpOuter a b h) c0 c1 =
      histGet h c0 c1 + if c0 = a ∧ c1 = b then 1 else 0 := by
  induction h with
  | nil => simp at hp
  | cons q t ih =>
    obtain ⟨a0, inn⟩ := q
    by_cases ha : a0 = a
    · subst ha
      have hbump : bumpOuter a0 b ((a0, inn) :: t) = (a0, innerIncr b inn) :: t := by
        simp [bumpOuter]
      rw [hbump]
      by_cases hc : a0 = c0
      · subst hc
        rw [histGet_cons, histGet_cons, if_pos rfl, if_pos rfl, innerGet_innerIncr]
        by_cases hcb : c1 = b
        · rw [if_pos hcb, if_pos ⟨rfl, hcb⟩]
        · rw [if_neg hcb, if_neg (by rintro ⟨hx1, hx2⟩; omega)]
      · rw [histGet_cons, histGet_cons, if_neg hc, if_neg hc,
          if_neg (by rintro ⟨hx1, hx2⟩; omega)]
        omega
    · have hbump : bumpOuter a b ((a0, inn) :: t) = (a0, inn) :: bumpOuter a b t := by
        simp [bumpOuter, ha]
      rw [hbump]
      have ht := any_tail_of_head_ne (a0, inn) t a hp ha
      by_cases hc : a0 = c0
      · rw [histGet_cons, histGet_cons, if_pos hc, if_pos hc,
          if_neg (by rintro ⟨hx1, hx2⟩; omega)]
        omega
      · rw [histGet_cons, histGet_cons, if_neg hc, if_neg hc, ih ht]

theorem histGet_coverage_incr (h : Hist) (a b c0 c1 : Nat) :
    histGet (coverage_incr h a b) c0 c1 =
      histGet h c0 c1 + if c0 = a ∧ c1 = b then 1 else 0 := by
  unfold coverage_incr
  by_cases hp : (h.any fun x => x.1 == a) = true
  · rw [if_pos hp]
    exact histGet_bumpOuter a b c0 c1 h hp
  · rw [if_neg hp]
    rw [histGet_cons]
    by_cases ha : a = c0
    · subst ha
      rw [if_pos rfl, histGet_not_any h a c1 hp]
      by_cases hcb : c1 = b
      · subst hcb
        rw [innerGet_cons_self, if_pos ⟨rfl, rfl⟩]
      · rw [innerGet_cons_ne _ _ _ _ (by omega), if_neg (by tauto)]
        rfl
    · rw [if_neg ha, if_neg (by rintro ⟨hx1, hx2⟩; omega)]
      omega

theorem histGet_foldl (c0 c1 : Nat) (l : List (Nat × Nat)) :
    ∀ h : Hist, histGet (l.foldl (fun h p => coverage_incr h p.1 p.2) h) c0 c1 =
      histGet h c0 c1 + pairCount l c0 c1 := by
  induction l with
  | nil => intro h; simp [pairCount]
  | cons p t ih =>
    intro h
    simp only [List.foldl_cons]
    rw [ih (coverage_incr h p.1 p.2), histGet_coverage_incr]
    unfold pairCount
    rw [List.countP_cons]
    have : ((p.1 == c0 && p.2 == c1) = true) ↔ (c0 = p.1 ∧ c1 = p.2) := by
      simp only [Bool.and_eq_true, beq_iff_eq]
      omega
    by_cases hx : c0 = p.1 ∧ c1 = p.2
    · rw [if_pos hx, if_pos (this.mpr hx)]
      omega
    · rw [if_neg hx, if_neg (fun hh => hx (this.mp hh))]
      omega

theorem histGet_buildHist (l : List (Nat × Nat)) (c0 c1 : Nat) :
    histGet (buildHist l) c0 c1 = pairCount l c0 c1 := by
  unfold buildHist
  rw [histGet_foldl c0 c1 l []]
  have h0 : histGet [] c0 c1 = 0 := rfl
  omega

theorem keys_bumpInner (b : Nat) (l : Inner) :
    (bumpInner b l).map Prod.fst = l.map Prod.fst := by
  induction l with
  | nil => rfl
  | cons q t ih =>
    obtain ⟨b0, m⟩ := q
    by_cases hb : b0 = b
    · simp [bumpInner, hb]
    · simp [bumpInner, hb, ih]

theorem mem_bumpInner_snd_ne_zero (b : Nat) (l : Inner)
    (h : ∀ p ∈ l, p.2 ≠ 0) : ∀ p ∈ bumpInner b l, p.2 ≠ 0 := by
  induction l with
  | nil => simp [bumpInner]
  | cons q t ih =>
    obtain ⟨b0, m⟩ := q
    intro p hp
    by_cases hb : b0 = b
    · rw [show bumpInner b ((b0, m) :: t) = (b0, m + 1) :: t by simp [bumpInner, hb]] at hp
      rcases List.mem_cons.mp hp with rfl | hp
      · simp
      · exact h p (List.mem_cons_of_mem _ hp)
    · rw [show bumpInner b ((b0, m) :: t) = (b0, m) :: bumpInner b t by
        simp [bumpInner, hb]] at hp
      rcases List.mem_cons.mp hp with rfl | hp
      · exact h (b0, m) (by simp)
      · exact ih (fun q hq => h q (List.mem_cons_of_mem _ hq)) p hp

theorem not_mem_keys_of_not_any {β : Type} (l : List (Nat × β)) (b : Nat)
    (h : ¬(l.any fun p => p.1 == b) = true) : b ∉ l.map Prod.fst := by
  intro hb
  obtain ⟨p, hp, hpb⟩ := List.mem_map.mp hb
  exact h (List.any_eq_true.mpr ⟨p, hp, by simp [hpb]⟩)

theorem innerWf_innerIncr (b : Nat) (l : Inner) (hwf : InnerWf l) :
    InnerWf (innerIncr b l) := by
  unfold innerIncr
  by_cases h : (l.any fun p => p.1 == b) = true
  · rw [if_pos h]
    exact ⟨by rw [keys_bumpInner]; exact hwf.1, mem_bumpInner_snd_ne_zero b l hwf.2⟩
  · rw [if_neg h]
    refine ⟨?_, ?_⟩
    · simp only [List.map_cons]
      exact List.nodup_cons.mpr ⟨not_mem_keys_of_not_any l b h, hwf.1⟩
    · intro p hp
      rcases List.mem_cons.mp hp with rfl | hp
      · simp
      · exact hwf.2 p hp

theorem keys_bumpOuter (a b : Nat) (h : Hist) :
    (bumpOuter a b h).map Prod.fst = h.map Prod.fst := by
  induction h with
  | nil => rfl
  | cons q t ih =>
    obtain ⟨a0, inn⟩ := q
    by_cases ha : a0 = a
    · simp [bumpOuter, ha]
    · simp [bumpOuter, ha, ih]

theorem innerWf_bumpOuter (a b : Nat) (h : Hist)
    (hwf : ∀ x ∈ h, InnerWf x.2) : ∀ x ∈ bumpOuter a b h, InnerWf x.2 := by
  induction h with
  | nil => simp [bumpOuter]
  | cons q t ih =>
    obtain ⟨a0, inn⟩ := q
    intro x hx
    by_cases ha : a0 = a
    · rw [show bumpOuter a b ((a0, inn) :: t) = (a0, innerIncr b inn) :: t by
        simp [bumpOuter, ha]] at hx
      rcases List.mem_cons.mp hx with rfl | hx
      · exact innerWf_innerIncr b inn (hwf (a0, inn) (by simp))
      · exact hwf x (List.mem_cons_of_mem _ hx)
    · rw [show bumpOuter a b ((a0, inn) :: t) = (a0, inn) :: bumpOuter a b t by
        simp [bumpOuter, ha]] at hx
      rcases List.mem_cons.mp hx with rfl | hx
      · exact hwf (a0, inn) (by simp)
      · exact ih (fun y hy => hwf y (List.mem_cons_of_mem _ hy)) x hx

theorem histWf_coverage_incr (h : Hist) (a b : Nat) (hwf : HistWf h) :
    HistWf (coverage_incr h a b) := by
  unfold coverage_incr
  by_cases hp : (h.any fun x => x.1 == a) = true
  · rw [if_pos hp]
    exact ⟨by rw [keys_bumpOuter]; exact hwf.1, innerWf_bumpOuter a b h hwf.2⟩
  · rw [if_neg hp]
    refine ⟨?_, ?_⟩
    · simp only [List.map_cons]
      exact List.nodup_cons.mpr ⟨not_mem_keys_of_not_any h a hp, hwf.1⟩
    · intro x hx
      rcases List.mem_cons.mp hx with rfl | hx
      · exact ⟨by simp, by simp⟩
      · exact hwf.2 x hx

theorem histWf_buildHist (l : List (Nat × Nat)) : HistWf (buildHist l) := by
  unfold buildHist
  have h0 : HistWf ([] : Hist) := ⟨List.nodup_nil, by simp⟩
  generalize ([] : Hist) = h at h0 ⊢
  induction l generalizing h with
  | nil => exact h0
  | cons p t ih =>
    simp only [List.foldl_cons]
    exact ih (coverage_incr h p.1 p.2) (histWf_coverage_incr h p.1 p.2 h0)

theorem find?_fst_eq {β : Type} (l : List (Nat × β)) (x : Nat × β)
    (hn : (l.map Prod.fst).Nodup) (hx : x ∈ l) :
    (l.find? fun y => y.1 == x.1) = some x := by
  induction l with
  | nil => simp at hx
  | cons q t ih =>
    rcases List.mem_cons.mp hx with rfl | hx
    · exact List.find?_cons_of_pos _ (by simp)
    · have hq : q.1 ≠ x.1 := by
        intro hc
        have hqm : q.1 ∈ t.map Prod.fst := by
          rw [hc]
          exact List.mem_map_of_mem _ hx
        exact (List.nodup_cons.mp (by simpa using hn)).1 hqm
      rw [List.find?_cons_of_neg _ (by simpa using fun hc => hq hc)]
      exact ih (List.nodup_cons.mp (by simpa using hn)).2 hx

theorem mem_emitRows (h : Hist) (hwf : HistWf h) (c0 c1 m : Nat) :
    (c0, c1, m) ∈ emitRows h ↔ histGet h c0 c1 = m ∧ m ≠ 0 := by
  unfold emitRows
  rw [List.mem_flatMap]
  constructor
  · rintro ⟨x, hx, hrow⟩
    obtain ⟨p, hpm, heq⟩ := List.mem_map.mp hrow
    have h1 : x.1 = c0 := congrArg Prod.fst heq
    have h2 : p.1 = c1 := congrArg (fun r => r.2.1) heq
    have h3 : p.2 = m := congrArg (fun r => r.2.2) heq
    have hfx : (h.find? fun y => y.1 == c0) = some x := by
      rw [← h1]
      exact find?_fst_eq h x hwf.1 hx
    have hfi : (x.2.find? fun q => q.1 == c1) = some p := by
      rw [← h2]
      exact find?_fst_eq x.2 p (hwf.2 x hx).1 hpm
    simp only [histGet, hfx, innerGet, hfi, Option.map_some', Option.getD_some]
    exact ⟨h3, by rw [← h3]; exact (hwf.2 x hx).2 _ hpm⟩
  · rintro ⟨hget, hm⟩
    cases hfind : h.find? fun y => y.1 == c0 with
    | none =>
      simp only [histGet, hfind] at hget
      omega
    | some x =>
      simp only [histGet, hfind] at hget
      have hx : x ∈ h := List.mem_of_find?_eq_some hfind
      have hx1 : x.1 = c0 := by
        simpa [beq_iff_eq] using List.find?_some hfind
      cases hif : x.2.find? fun p => p.1 == c1 with
      | none =>
        simp only [innerGet, hif] at hget
        simp at hget
        omega
      | some p =>
        simp only [innerGet, hif, Option.map_some', Option.getD_some] at hget
        have hp : p ∈ x.2 := List.mem_of_find?_eq_some hif
        have hp1 : p.1 = c1 := by
          simpa [beq_iff_eq] using List.find?_some hif
        refine ⟨x, hx, List.mem_map.mpr ⟨p, hp, ?_⟩⟩
        rw [hx1, hp1, hget]

theorem mem_emitRows_buildHist (l : List (Nat × Nat)) (c0 c1 m : Nat) :
    (c0, c1, m) ∈ emitRows (buildHist l) ↔ m ≠ 0 ∧ m = pairCount l c0 c1 := by
  rw [mem_emitRows (buildHist l) (histWf_buildHist l) c0 c1 m, histGet_buildHist]
  tauto

/-! ### Claim-level helper lemmas -/

theorem specGroups_map_fst (ss : List CountStream) :
    (specGroups ss).map Prod.fst = unionKeys ss := by
  unfold specGroups
  rw [List.map_map]
  exact (List.map_congr_left fun a _ => rfl).trans (List.map_id _)

theorem unionKeys_nodup (ss : List CountStream) : (unionKeys ss).Nodup :=
  (pairwise_unionKeys ss).imp fun h => Nat.ne_of_lt h

theorem allAsc_pair (a b : CountStream) (ha : Asc a) (hb : Asc b) : AllAsc [a, b] := by
  intro s hs
  rcases List.mem_cons.mp hs with rfl | hs
  · exact ha
  · rcases List.mem_cons.mp hs with rfl | hs
    · exact hb
    · simp at hs

theorem parseSaveMers_foldl (args : List String) :
    ∀ s : Bool,
      args.foldl
        (fun s a =>
          match getoptCode a with
          | some c => optionSwitch s c
          | none => s)
        s = (s || args.any fun a => a == "-m") := by
  induction args with
  | nil => intro s; simp
  | cons a t ih =>
    intro s
    simp only [List.foldl_cons, List.any_cons]
    rw [ih]
    by_cases ha : a = "-m"
    · subst ha
      have hgc : getoptCode "-m" = some 109 := by decide
      simp only [hgc]
      have hsw : ∀ s2 : Bool, optionSwitch s2 109 = true := fun s2 => rfl
      simp [hsw]
    · have hbeq : (a == "-m") = false := by
        simpa using ha
      by_cases hb : a = "--savemers"
      · subst hb
        have hgc : getoptCode "--savemers" = some 0 := by decide
        simp only [hgc]
        have hsw : ∀ s2 : Bool, optionSwitch s2 0 = s2 := fun s2 => rfl
        simp [hsw, hbeq]
      · have hgc : getoptCode a = none := by
          simp [getoptCode, ha, hb]
        simp only [hgc]
        simp [hbeq]

theorem checkNext_error (res : CommonInfo) (f : FileInfo)
    (hmis : res.format ≠ f.header.format ∨ res.key_len ≠ f.header.key_len ∨
      res.max_reprobe_offset ≠ f.header.max_reprobe_offset ∨
      res.size ≠ f.header.size ∨ res.matrix ≠ f.header.matrix) :
    ∃ e, checkNext res f = .error e := by
  cases hgood : f.good with
  | false => exact ⟨"Failed to open input file", by simp [checkNext, hgood]⟩
  | true =>
    unfold checkNext
    rw [hgood]
    rw [if_neg (by simp)]
    by_cases h1 : res.format ≠ f.header.format
    · rw [if_pos h1]
      exact ⟨_, rfl⟩
    · rw [if_neg h1]
      by_cases h2 : res.key_len ≠ f.header.key_len
      · rw [if_pos h2]
        exact ⟨_, rfl⟩
      · rw [if_neg h2]
        by_cases h3 : res.max_reprobe_offset ≠ f.header.max_reprobe_offset
        · rw [if_pos h3]
          exact ⟨_, rfl⟩
        · rw [if_neg h3]
          by_cases h4 : res.size ≠ f.header.size
          · rw [if_pos h4]
            exact ⟨_, rfl⟩
          · rw [if_neg h4]
            by_cases h5 : res.matrix ≠ f.header.matrix
            · rw [if_pos h5]
              exact ⟨_, rfl⟩
            · exact absurd hmis (by tauto)

theorem read_headers_loop_error (res : CommonInfo) :
    ∀ (rest : List FileInfo) (j : Nat) (fi : FileInfo), rest[j]? = some fi →
      (res.format ≠ fi.header.format ∨ res.key_len ≠ fi.header.key_len ∨
       res.max_reprobe_offset ≠ fi.header.max_reprobe_offset ∨
       res.size ≠ fi.header.size ∨ res.matrix ≠ fi.header.matrix) →
      ∃ e, read_headers_loop res rest = .error e
  | [], j, fi, hj, _ => by simp at hj
  | f :: rest, 0, fi, hj, hmis => by
    simp only [List.getElem?_cons_zero, Option.some.injEq] at hj
    subst hj
    unfold read_headers_loop
    obtain ⟨e, he⟩ := checkNext_error res f hmis
    rw [he]
    exact ⟨e, rfl⟩
  | f :: rest, j + 1, fi, hj, hmis => by
    simp only [List.getElem?_cons_succ] at hj
    unfold read_headers_loop
    cases hc : checkNext res f with
    | error e => exact ⟨e, rfl⟩
    | ok u =>
      obtain ⟨e, he⟩ := read_headers_loop_error res rest j fi hj hmis
      exact ⟨e, by rw [he]⟩

theorem read_headers_error (files : List FileInfo) (f0 fi : FileInfo) (i : Nat)
    (h0 : files[0]? = some f0) (hi : files[i]? = some fi) (h1 : 1 ≤ i)
    (hmis : f0.header.format ≠ fi.header.format ∨
      f0.header.key_len ≠ fi.header.key_len ∨
      f0.header.max_reprobe_offset ≠ fi.header.max_reprobe_offset ∨
      f0.header.size ≠ fi.header.size ∨ f0.header.matrix ≠ fi.header.matrix) :
    ∃ e, read_headers files = .error e := by
  cases files with
  | nil => simp at h0
  | cons g rest =>
    simp only [List.getElem?_cons_zero, Option.some.injEq] at h0
    subst h0
    cases hgood : g.good with
    | false => exact ⟨"Failed to open input file", by simp [read_headers, hgood]⟩
    | true =>
      simp only [read_headers]
      rw [hgood]
      rw [if_neg (by simp)]
      cases i with
      | zero => omega
      | succ j =>
        simp only [List.getElem?_cons_succ] at hi
        exact read_headers_loop_error _ rest j fi hi hmis

/-! ### Claim theorems -/

/-- Claim C1 (amended): the emitted table contains one row per occupied
histogram cell, with `occurrences` equal to the number of merge groups
whose count pair is that cell; the row order is the hash map's internal
iteration order, which is not sorted by (count0, count1) — see the
counterexample `c1_table_not_sorted_cex`. -/
theorem c1_table_rows_content (ss : List CountStream) (c0 c1 m : Nat) :
    (c0, c1, m) ∈ (output_counts ss true).1 ↔
      m ≠ 0 ∧ m = pairCount (groupPairs ss) c0 c1 := by
  have hrows : (output_counts ss true).1 = emitRows (buildHist (groupPairs ss)) := rfl
  rw [hrows]
  exact mem_emitRows_buildHist (groupPairs ss) c0 c1 m

/-- Claim C1 is false as stated: on the spec's own concrete scenario
(section 8.5) the table comes out as (0,1,1), (5,2,1), (3,3,1) — the
`unordered_map` iteration order — which is not ascending by count0. -/
theorem c1_table_not_sorted_cex :
    (output_counts [demoA, demoB] true).1 = [(0, 1, 1), (5, 2, 1), (3, 3, 1)] ∧
    ¬ rowsAscending ((output_counts [demoA, demoB] true).1) := by
  refine ⟨rfl, ?_⟩
  intro hasc
  have h : rowsAscending [(0, 1, 1), (5, 2, 1), (3, 3, 1)] := hasc
  unfold rowsAscending at h
  rw [List.chain'_cons, List.chain'_cons] at h
  rcases h with ⟨h1, h2, h3⟩
  rcases h2 with h2 | ⟨h2, h2b⟩
  · simp at h2
  · simp at h2

/-- Claim C2 (amended): the group-draining loop terminates, and pops
nothing further, the moment the heap becomes empty or its minimum key
differs from the current group key — it consumes exactly the heads whose
key matches — but the C++ loop condition evaluates `head-key` before
`heap.is_not_empty()`, so the (stale) heap head is read exactly once with
the heap empty: once per run, when the final group drains the heap. -/
theorem c2_drain_stops (ss : List CountStream) (hasc : AllAsc ss) :
    (∀ key counts, counts.length = ss.length →
      (∀ x ∈ headsFrom 0 ss, key ≤ x.1) →
      (∃ e, heapHead ss = some e ∧ e.1 = key) →
      drainLoopF (totalLen ss) key ss counts 0 =
        (advanceAll key ss, fillCounts key counts ss,
         if headsFrom 0 (advanceAll key ss) = [] then 1 else 0)) ∧
    (mergeGroupsAll ss).2 = (if headsFrom 0 ss = [] then 0 else 1) := by
  constructor
  · intro key counts hlen hlb hhd
    have h := drainLoopF_spec (totalLen ss) key ss counts 0 (Nat.le_refl _) hlen hasc hlb hhd
    rw [h, Nat.zero_add]
  · exact mergeGroupsAll_snd ss hasc

theorem c2_drain_stops_witness :
    drainLoopF (totalLen [[(0, 1)], []]) 0 [[(0, 1)], []] [0, 0] 0 =
      ([[], []], [1, 0], 1) ∧
    (mergeGroupsAll [[(0, 1)], []]).2 = 1 := by
  have h := c2_drain_stops [[(0, 1)], []] (by decide)
  refine ⟨?_, ?_⟩
  · have h1 := h.1 0 [0, 0] (by decide) (by decide) ⟨(0, 0, 1), by decide, rfl⟩
    rw [h1]
    decide
  · rw [h.2]
    decide

/-- Claim C2 is false in its no-dereference part: on the valid input with
streams [(0,1)] and [], the loop-condition reads the heap head once while
the heap is empty (the dereference tally of the run is 1, not 0). -/
theorem c2_empty_head_deref_cex :
    (output_counts [[(0, 1)], []] true).2.2 = 1 ∧
    (output_counts [[(0, 1)], []] true).2.2 ≠ 0 := by
  refine ⟨by decide, by decide⟩

/-- Claim C4: every key present in at least one (strictly ascending) input
stream is collected into exactly one merge-group count vector; that
vector's slot i holds the key's count from stream i when stream i contains
the key, and zero when it does not. -/
theorem c4_completeness (ss : List CountStream) (hasc : AllAsc ss) (k : Nat)
    (hk : ∃ s ∈ ss, ∃ v, (k, v) ∈ s) :
    ((mergeGroupsList ss).map Prod.fst).count k = 1 ∧
    ∀ g ∈ mergeGroupsList ss, g.1 = k →
      ∀ (i : Nat) (s : CountStream), ss[i]? = some s →
        (∀ v, (k, v) ∈ s → g.2[i]? = some v) ∧
        ((∀ v, (k, v) ∉ s) → g.2[i]? = some 0) := by
  rw [mergeGroupsList_eq_spec ss hasc, specGroups_map_fst]
  constructor
  · exact List.count_eq_one_of_mem (unionKeys_nodup ss) ((mem_unionKeys ss k).mpr hk)
  · intro g hg hgk i s hsi
    obtain ⟨k2, hk2, hgeq⟩ := List.mem_map.mp hg
    have h1 : g.1 = k2 := by rw [← hgeq]
    have hg2 : g.2 = ss.map fun s2 => lookupKey s2 k := by
      rw [← hgeq]
      simp only
      rw [show k2 = k from by rw [← h1, hgk]]
    have hgi : g.2[i]? = some (lookupKey s k) := by
      rw [hg2, List.getElem?_map, hsi]
      rfl
    constructor
    · intro v hv
      rw [hgi, lookupKey_of_mem s k v (hasc s (List.mem_iff_getElem?.mpr ⟨i, hsi⟩)) hv]
    · intro hnv
      rw [hgi, lookupKey_of_not_mem s k hnv]

theorem c4_completeness_witness :
    ((mergeGroupsList [demoA, demoB]).map Prod.fst).count 2 = 1 ∧
    ∀ g ∈ mergeGroupsList [demoA, demoB], g.1 = 2 →
      ∀ (i : Nat) (s : CountStream), [demoA, demoB][i]? = some s →
        (∀ v, (2, v) ∈ s → g.2[i]? = some v) ∧
        ((∀ v, (2, v) ∉ s) → g.2[i]? = some 0) :=
  c4_completeness [demoA, demoB] (by decide) 2 ⟨demoA, by decide, 5, by decide⟩

/-- Claim C5: at every point during the merge the sum of all occurrence
tallies over the coverage histogram equals the number of groups recorded
so far (the distinct keys processed so far), and at the end it equals the
number of distinct keys of the union of the two input streams. -/
theorem c5_histogram_conservation (a b : CountStream) (ha : Asc a) (hb : Asc b) :
    (∀ m, histSum (buildHist ((groupPairs [a, b]).take m)) =
      min m (unionKeys [a, b]).length) ∧
    histSum (buildHist (groupPairs [a, b])) = (unionKeys [a, b]).length ∧
    (unionKeys [a, b]).Nodup ∧
    ∀ k, (k ∈ unionKeys [a, b] ↔ ∃ s ∈ [a, b], ∃ v, (k, v) ∈ s) := by
  have hasc := allAsc_pair a b ha hb
  have hlen : (groupPairs [a, b]).length = (unionKeys [a, b]).length := by
    unfold groupPairs
    rw [List.length_map, mergeGroupsList_eq_spec [a, b] hasc]
    unfold specGroups
    rw [List.length_map]
  refine ⟨?_, ?_, unionKeys_nodup _, fun k => mem_unionKeys _ k⟩
  · intro m
    rw [histSum_buildHist, List.length_take, hlen]
  · rw [histSum_buildHist, hlen]

theorem c5_histogram_conservation_witness :
    (∀ m, histSum (buildHist ((groupPairs [demoA, demoB]).take m)) =
      min m (unionKeys [demoA, demoB]).length) ∧
    histSum (buildHist (groupPairs [demoA, demoB])) = (unionKeys [demoA, demoB]).length ∧
    (unionKeys [demoA, demoB]).Nodup ∧
    ∀ k, (k ∈ unionKeys [demoA, demoB] ↔ ∃ s ∈ [demoA, demoB], ∃ v, (k, v) ∈ s) :=
  c5_histogram_conservation demoA demoB (by decide) (by decide)

/-- Claim C6: for strictly ascending input streams the merge emits its
count vectors in strictly increasing key order, with no key repeated and
no key of the union of the inputs skipped. -/
theorem c6_merge_order (ss : List CountStream) (hasc : AllAsc ss) :
    List.Pairwise (· < ·) ((mergeGroupsList ss).map Prod.fst) ∧
    ∀ k, (k ∈ (mergeGroupsList ss).map Prod.fst ↔ ∃ s ∈ ss, ∃ v, (k, v) ∈ s) := by
  rw [mergeGroupsList_eq_spec ss hasc, specGroups_map_fst]
  exact ⟨pairwise_unionKeys ss, fun k => mem_unionKeys ss k⟩

theorem c6_merge_order_witness :
    List.Pairwise (· < ·) ((mergeGroupsList [demoA, demoB]).map Prod.fst) ∧
    ∀ k, (k ∈ (mergeGroupsList [demoA, demoB]).map Prod.fst ↔
      ∃ s ∈ [demoA, demoB], ∃ v, (k, v) ∈ s) :=
  c6_merge_order [demoA, demoB] (by decide)

/-- Claim C3 is right about the intent but the code is wrong (code bug):
`output_counts` never checks the result of `outfile_.open(outfile)`
(`kmer_count_pairs.cc:140`), so when the destination cannot be opened the
stream writes are silently discarded, the merge still runs to completion,
and the process exits 0 — no IOError is reported and nothing terminates.
Evaluated at the failing input (an unopenable table destination), the run
returns `ok` with an empty table instead of an error. -/
theorem c3_open_failure_silent :
    mainRun [] ["a", "r", "p"] demoFiles false =
      Except.ok ⟨[], [(0, 3), (2, 5), (3, 0)], false⟩ := by
  rfl

/-- Claim C7: whenever any subsequent input file's header differs from the
first file's in format, key length, reprobe strategy, table size, or hash
matrix, `read_headers` dies with an error, and so does the whole program —
before any merge work begins. -/
theorem c7_header_mismatch_fatal (files : List FileInfo) (f0 fi : FileInfo) (i : Nat)
    (h0 : files[0]? = some f0) (hi : files[i]? = some fi) (h1 : 1 ≤ i)
    (hmis : f0.header.format ≠ fi.header.format ∨
      f0.header.key_len ≠ fi.header.key_len ∨
      f0.header.max_reprobe_offset ≠ fi.header.max_reprobe_offset ∨
      f0.header.size ≠ fi.header.size ∨ f0.header.matrix ≠ fi.header.matrix) :
    (∃ e, read_headers files = .error e) ∧
    ∀ optionArgs positionals openOk,
      ∃ e, mainRun optionArgs positionals files openOk = .error e := by
  have hrh := read_headers_error files f0 fi i h0 hi h1 hmis
  refine ⟨hrh, ?_⟩
  intro oa pos ok2
  obtain ⟨e, he⟩ := hrh
  simp only [mainRun]
  by_cases hp : pos.length ≠ 3
  · rw [if_pos hp]
    exact ⟨"usage", rfl⟩
  · rw [if_neg hp]
    simp only [he]
    exact ⟨e, rfl⟩

theorem c7_header_mismatch_fatal_witness :
    (∃ e, read_headers demoBadFiles = .error e) ∧
    ∀ optionArgs positionals openOk,
      ∃ e, mainRun optionArgs positionals demoBadFiles openOk = .error e :=
  c7_header_mismatch_fatal demoBadFiles ⟨true, demoHeader, demoA⟩
    ⟨true, demoBadHeader, demoB⟩ 1 (by decide) (by decide) (by decide)
    (Or.inr (Or.inl (by decide)))

/-- Claim C8 is false in its only-when-enabled part: with persistence
disabled (no `-m`, so `saveMers = false` and the final dump is skipped),
every distinct key is still fed to the mer hash — the add trace of the
demo run is the full key list, not empty. -/
theorem c8_forward_without_flag_cex :
    (mainRun [] ["a", "r", "p"] demoFiles true).map
        (fun r => (r.addTrace, r.dumped)) =
      Except.ok ([(0, 3), (2, 5), (3, 0)], false) ∧
    ([(0, 3), (2, 5), (3, 0)] : List (Nat × Nat)) ≠ [] :=
  ⟨rfl, by decide⟩

/-- Claim C8 (amended): `mer_hash_.add(key, counts[0])` runs exactly once
per distinct key, in ascending merge order, regardless of the persistence
flag; the `-m` flag only controls whether the accumulated hash is dumped
to the sink file at the end of `main`. -/
theorem c8_add_trace_spec (ss : List CountStream) (hasc : AllAsc ss) (openOk : Bool) :
    (output_counts ss openOk).2.1 =
      (unionKeys ss).map (fun k => (k, lookupKey (ss.headD []) k)) ∧
    List.Pairwise (· < ·) (((output_counts ss openOk).2.1).map Prod.fst) ∧
    ∀ optionArgs positionals files tOk r,
      mainRun optionArgs positionals files tOk = .ok r →
        r.dumped = parseSaveMers optionArgs := by
  have htrace : (output_counts ss openOk).2.1 = addTraceOf ss := rfl
  have hmain : addTraceOf ss =
      (unionKeys ss).map fun k => (k, lookupKey (ss.headD []) k) := by
    unfold addTraceOf
    rw [mergeGroupsList_eq_spec ss hasc]
    unfold specGroups
    rw [List.map_map]
    apply List.map_congr_left
    intro k hk
    cases ss with
    | nil =>
      exfalso
      have hnil : unionKeys ([] : List CountStream) = [] := rfl
      rw [hnil] at hk
      simp at hk
    | cons s0 rest =>
      simp [List.getD]
  refine ⟨htrace.trans hmain, ?_, ?_⟩
  · rw [htrace, hmain, List.map_map]
    have hid : ((unionKeys ss).map
        (Prod.fst ∘ fun k => (k, lookupKey (ss.headD []) k))) = unionKeys ss :=
      (List.map_congr_left fun x _ => rfl).trans (List.map_id _)
    rw [hid]
    exact pairwise_unionKeys ss
  · intro oa pos files tOk r hr
    simp only [mainRun] at hr
    by_cases hp : pos.length ≠ 3
    · rw [if_pos hp] at hr
      exact absurd hr (by simp)
    · rw [if_neg hp] at hr
      cases hro : read_headers files with
      | error e =>
        simp only [hro] at hr
        exact absurd hr (by simp)
      | ok cinfo =>
        simp only [hro] at hr
        by_cases hf : cinfo.format = binary_format ∨ cinfo.format = text_format
        · rw [if_pos hf] at hr
          have hinj := Except.ok.inj hr
          rw [← hinj]
        · rw [if_neg hf] at hr
          exact absurd hr (by simp)

theorem c8_add_trace_spec_witness :
    (output_counts [demoA, demoB] false).2.1 =
      (unionKeys [demoA, demoB]).map
        (fun k => (k, lookupKey ([demoA, demoB].headD []) k)) ∧
    List.Pairwise (· < ·)
      (((output_counts [demoA, demoB] false).2.1).map Prod.fst) ∧
    ∀ optionArgs positionals files tOk r,
      mainRun optionArgs positionals files tOk = .ok r →
        r.dumped = parseSaveMers optionArgs :=
  c8_add_trace_spec [demoA, demoB] (by decide) false

/-- Claim C9: only the short option `-m` enables the key-persistence mode;
`--savemers` is recognized by getopt_long but returns code 0, which the
option switch (handling only the codes for m and the question mark)
ignores, leaving persistence disabled. -/
theorem c9_savemers_ignored :
    (∀ s : Bool, optionSwitch s 0 = s) ∧
    getoptCode "--savemers" = some 0 ∧
    parseSaveMers ["--savemers"] = false ∧
    ∀ args : List String, (parseSaveMers args = true ↔ "-m" ∈ args) := by
  refine ⟨fun s => rfl, by decide, by decide, ?_⟩
  intro args
  unfold parseSaveMers
  rw [parseSaveMers_foldl args false]
  simp

/-- Claim C10: the table path is `argv[3] ++ ".tsv"` and the persisted-mers
path is `argv[argc-1] ++ "_mers.jf"`; with no option flags both derive from
the out_prefix positional, while with `-m` present the table lands on the
second positional (the read-database path) plus ".tsv". -/
theorem c10_output_paths (prog a r p : String) :
    (table_file (argvAfterGetopt prog [] [a, r, p]) = p ++ ".tsv" ∧
     mers_file (argvAfterGetopt prog [] [a, r, p]) = p ++ "_mers.jf") ∧
    (table_file (argvAfterGetopt prog ["-m"] [a, r, p]) = r ++ ".tsv" ∧
     mers_file (argvAfterGetopt prog ["-m"] [a, r, p]) = p ++ "_mers.jf") := by
  refine ⟨⟨?_, ?_⟩, ?_, ?_⟩ <;>
    simp [table_file, mers_file, argvAfterGetopt, List.getD, List.getLastD]

end KmerCountPairs
